import Mathlib

/-!
Shallow embedding of the `ssh_format` codec (src/src/ser.rs, src/src/de.rs,
src/src/ser_backer.rs, src/ssh_format_error/src/lib.rs) in Lean 4.

Bytes are modelled as `Nat` (values `< 256` where the Rust type guarantees it),
byte buffers as `List Nat`.  Serde's visitor-driven traversal is modelled by a
closed universe `Value` of supported values and a universe `Shape` of target
type shapes that drives the deserializer, mirroring how derived
`Serialize`/`Deserialize` implementations walk a type.
-/

namespace SshFormat

/-- Error type, from `src/ssh_format_error/src/lib.rs` (`IoError` omitted:
the codec itself never constructs it). -/
inductive Error where
  | Message (msg : String)
  | Eof
  | InvalidBoolEncoding
  | InvalidChar
  | InvalidStr
  | Unsupported (what : String)
  | TooLong
deriving DecidableEq, Repr

/-- Big-endian byte representation of `v` in `w` bytes
(`to_be_bytes` for the fixed-width unsigned integer types). -/
def toBE : Nat → Nat → List Nat
  | 0, _ => []
  | w + 1, v => toBE w (v / 256) ++ [v % 256]

/-- `from_be_bytes`: fold a big-endian byte list back into a `Nat`. -/
def fromBE (l : List Nat) : Nat := l.foldl (fun acc b => acc * 256 + b) 0

/-- Two's-complement representation of the signed integer `v` in `w` bits
(`v as uN` / the bit pattern fed to `to_be_bytes` for signed types). -/
def toU (w : Nat) (v : Int) : Nat := (v % ((2 : Int) ^ w)).toNat

/-- Reinterpret a `w`-bit unsigned value as a signed integer
(`iN::from_be_bytes` semantics). -/
def toI (w : Nat) (n : Nat) : Int :=
  if n < 2 ^ (w - 1) then (n : Int) else (n : Int) - (2 : Int) ^ w

/-- `char::from_u32` succeeds exactly on Unicode scalar values:
below the surrogate range or between it and `0x110000`. -/
def validScalar (c : Nat) : Bool :=
  decide (c < 0xD800) || (decide (0xE000 ≤ c) && decide (c < 0x110000))

/-- UTF-8 encoding of one Unicode scalar value (`char` → `str` bytes). -/
def utf8EncodeChar (c : Nat) : List Nat :=
  if c < 0x80 then [c]
  else if c < 0x800 then [0xC0 + c / 64, 0x80 + c % 64]
  else if c < 0x10000 then
    [0xE0 + c / 4096, 0x80 + c / 64 % 64, 0x80 + c % 64]
  else
    [0xF0 + c / 262144, 0x80 + c / 4096 % 64, 0x80 + c / 64 % 64, 0x80 + c % 64]

/-- UTF-8 encoding of a string given as its list of Unicode scalar values
(`str::as_bytes`). -/
def utf8Encode (s : List Nat) : List Nat := (s.map utf8EncodeChar).flatten

/- UTF-8 validation-and-decoding, faithful to `core::str::from_utf8`:
rejects bare continuation bytes, overlong forms (`0xC0`/`0xC1`, and the
restricted second-byte ranges after `0xE0`/`0xF0`), surrogates (after `0xED`)
and values above `0x10FFFF` (after `0xF4` / leads `≥ 0xF5`). -/
mutual

/-- UTF-8 validation-and-decoding: dispatch on the lead byte, with the
continuation handled per arity by the `utf8DecodeTail` functions below. -/
def utf8Decode : List Nat → Option (List Nat)
  | [] => some []
  | b :: rest =>
    if b < 0x80 then (utf8Decode rest).map (b :: ·)
    else if b < 0xC2 then none
    else if b < 0xE0 then utf8DecodeTail2 b rest
    else if b < 0xF0 then utf8DecodeTail3 b rest
    else if b < 0xF5 then utf8DecodeTail4 b rest
    else none
termination_by l => l.length
decreasing_by
  all_goals simp_wf
  all_goals omega

/-- Continuation of `utf8Decode` after a 2-byte lead `b`
(`0xC2 ≤ b < 0xE0`): one continuation byte in `0x80..0xBF`. -/
def utf8DecodeTail2 (b : Nat) : List Nat → Option (List Nat)
  | b1 :: rest1 =>
    if 0x80 ≤ b1 ∧ b1 < 0xC0 then
      (utf8Decode rest1).map (((b - 0xC0) * 64 + (b1 - 0x80)) :: ·)
    else none
  | [] => none
termination_by l => l.length
decreasing_by
  all_goals simp_wf
  all_goals omega

/-- Continuation of `utf8Decode` after a 3-byte lead `b`
(`0xE0 ≤ b < 0xF0`): two continuation bytes, where the first has the
restricted range `0xA0..0xBF` after `0xE0` (no overlong forms) and
`0x80..0x9F` after `0xED` (no surrogates). -/
def utf8DecodeTail3 (b : Nat) : List Nat → Option (List Nat)
  | b1 :: b2 :: rest2 =>
    if (if b = 0xE0 then 0xA0 else 0x80) ≤ b1 ∧
        b1 < (if b = 0xED then 0xA0 else 0xC0) ∧ 0x80 ≤ b2 ∧ b2 < 0xC0 then
      (utf8Decode rest2).map
        (((b - 0xE0) * 4096 + (b1 - 0x80) * 64 + (b2 - 0x80)) :: ·)
    else none
  | _ => none
termination_by l => l.length
decreasing_by
  all_goals simp_wf
  all_goals omega

/-- Continuation of `utf8Decode` after a 4-byte lead `b`
(`0xF0 ≤ b < 0xF5`): three continuation bytes, where the first has the
restricted range `0x90..0xBF` after `0xF0` (no overlong forms) and
`0x80..0x8F` after `0xF4` (nothing above `0x10FFFF`). -/
def utf8DecodeTail4 (b : Nat) : List Nat → Option (List Nat)
  | b1 :: b2 :: b3 :: rest3 =>
    if (if b = 0xF0 then 0x90 else 0x80) ≤ b1 ∧
        b1 < (if b = 0xF4 then 0x90 else 0xC0) ∧ 0x80 ≤ b2 ∧ b2 < 0xC0 ∧
        0x80 ≤ b3 ∧ b3 < 0xC0 then
      (utf8Decode rest3).map
        (((b - 0xF0) * 262144 + (b1 - 0x80) * 4096 +
          (b2 - 0x80) * 64 + (b3 - 0x80)) :: ·)
    else none
  | _ => none
termination_by l => l.length
decreasing_by
  all_goals simp_wf
  all_goals omega

end

/-- `std::borrow::Cow<[u8]>`: the two-case borrowed/owned result of a
variable-length read (`de.rs: next_bytes`). -/
inductive Cow where
  | borrowed (bytes : List Nat)
  | owned (bytes : List Nat)
deriving DecidableEq, Repr

/-- The byte contents of either `Cow` case. -/
def Cow.data : Cow → List Nat
  | .borrowed bytes => bytes
  | .owned bytes => bytes

/-- Deserializer state (`de.rs: struct Deserializer`): the current chunk
`slice` and the remaining chunks of the fused iterator `iter`. -/
structure Deserializer where
  slice : List Nat
  iter : List (List Nat)
deriving DecidableEq, Repr

namespace Deserializer

/-- `Deserializer::new(iter)`: empty current slice, all input in the iterator. -/
def new (iter : List (List Nat)) : Deserializer := ⟨[], iter⟩

/-- `Deserializer::from_bytes(slice)`: contiguous mode, empty iterator. -/
def ofBytes (slice : List Nat) : Deserializer := ⟨slice, []⟩

/-- All bytes remaining in the source, in delivery order. -/
def flatten (s : Deserializer) : List Nat := s.slice ++ s.iter.flatten

/-- `de.rs: update_slice` (with `update_slice_inner` inlined): if the current
slice is exhausted, advance the iterator to the first non-empty chunk,
defaulting to an empty slice when the iterator is exhausted. -/
def update_slice (s : Deserializer) : Deserializer :=
  if s.slice.isEmpty then
    match s.iter.dropWhile List.isEmpty with
    | [] => ⟨[], []⟩
    | c :: rest => ⟨c, rest⟩
  else s

/-- `de.rs: next_byte`. -/
def next_byte (s : Deserializer) : Except Error (Nat × Deserializer) :=
  let s1 := update_slice s
  match s1.slice with
  | [] => .error .Eof
  | b :: bs => .ok (b, ⟨bs, s1.iter⟩)

/-- `de.rs: fill_buffer`, returning the bytes copied into the caller's
buffer.  Each loop iteration copies `n = min (slice length) (bytes still
needed)` bytes out of the current slice (the source's local `n`, inlined
here), then continues on the rest. -/
def fill_buffer (n : Nat) (s : Deserializer) : Except Error (List Nat × Deserializer) :=
  if n = 0 then .ok ([], s)
  else
    let s1 := update_slice s
    if h : s1.slice.isEmpty then .error .Eof
    else
      match fill_buffer (n - min s1.slice.length n)
          ⟨s1.slice.drop (min s1.slice.length n), s1.iter⟩ with
      | .ok (rest, sf) => .ok (s1.slice.take (min s1.slice.length n) ++ rest, sf)
      | .error e => .error e
termination_by n
decreasing_by
  simp only [List.isEmpty_iff] at h
  have : 0 < s.update_slice.slice.length := List.length_pos.mpr h
  omega

/-- `de.rs: next_bytes_const::<SIZE>` (the `SIZE ≠ 0` assertion always holds
at its call sites, which use 2, 4 and 8). -/
def next_bytes_const (size : Nat) (s : Deserializer) :
    Except Error (List Nat × Deserializer) :=
  fill_buffer size s

/-- `de.rs: next_u32`. -/
def next_u32 (s : Deserializer) : Except Error (Nat × Deserializer) := do
  let (bs, s) ← next_bytes_const 4 s
  .ok (fromBE bs, s)

/-- `de.rs: next_bytes`: borrowed zero-copy slice if the current chunk has
enough bytes, otherwise an owned buffer filled across chunks. -/
def next_bytes (size : Nat) (s : Deserializer) : Except Error (Cow × Deserializer) :=
  let s1 := update_slice s
  if size ≤ s1.slice.length then
    .ok (.borrowed (s1.slice.take size), ⟨s1.slice.drop size, s1.iter⟩)
  else
    match fill_buffer size s1 with
    | .ok (bytes, sf) => .ok (.owned bytes, sf)
    | .error e => .error e

/-- `de.rs: parse_bytes`: 4-byte big-endian length, then that many bytes.
(The `u32 → usize` conversion cannot fail on a 64-bit target, so the
`Error::TooLong` branch of the source is unreachable and not modelled.) -/
def parse_bytes (s : Deserializer) : Except Error (Cow × Deserializer) := do
  let (len, s) ← next_u32 s
  next_bytes len s

end Deserializer

/-- The closed universe of supported values: the types the crate's tests and
docs exercise.  Fixed-width integers carry their mathematical value (signed
ones as `Int`); `str` carries the list of Unicode scalar values; `tuple`
covers tuples, structs and tuple structs (identical framing in `ser.rs`);
`enum` carries the variant index and the variant's payload fields. -/
inductive Value where
  | u8 (v : Nat)
  | u16 (v : Nat)
  | u32 (v : Nat)
  | u64 (v : Nat)
  | i8 (v : Int)
  | i16 (v : Int)
  | i32 (v : Int)
  | i64 (v : Int)
  | bool (b : Bool)
  | char (c : Nat)
  | str (s : List Nat)
  | bytes (b : List Nat)
  | unit
  | tuple (fields : List Value)
  | seq (elems : List Value)
  | enum (idx : Nat) (fields : List Value)
  | optNone
  | optSome (v : Value)
deriving Repr

/-- Serializer state (`ser.rs: struct Serializer` over a `Vec<u8>` output):
the output buffer and the running length counter `len`. -/
structure Serializer where
  output : List Nat
  len : Nat
deriving DecidableEq, Repr

namespace Serializer

/-- `ser.rs: usize_to_u32`: fails with `Error::TooLong` when the value does
not fit in 32 bits. -/
def usize_to_u32 (v : Nat) : Except Error Nat :=
  if v < 2 ^ 32 then .ok v else .error .TooLong

/-- `ser.rs: Serializer::extend_from_slice`: append bytes, bump the counter. -/
def extend_from_slice (st : Serializer) (other : List Nat) : Serializer :=
  ⟨st.output ++ other, st.len + other.length⟩

/-- `ser.rs: Serializer::push`: append one byte, bump the counter. -/
def push (st : Serializer) (byte : Nat) : Serializer :=
  ⟨st.output ++ [byte], st.len + 1⟩

/-- `ser.rs: serialize_u32` (`v.to_be_bytes()` appended; `v` is a `u32`). -/
def serialize_u32 (st : Serializer) (v : Nat) : Serializer :=
  st.extend_from_slice (toBE 4 v)

/-- `ser.rs: Serializer::serialize_usize`: checked conversion to `u32`,
then 4 big-endian bytes. -/
def serialize_usize (st : Serializer) (v : Nat) : Except Error Serializer := do
  let v32 ← usize_to_u32 v
  .ok (st.serialize_u32 v32)

/-- `ser.rs: Serializer::create_header`: the total of the running counter and
`len`, as 4 big-endian bytes, failing with `Error::TooLong` past `u32::MAX`. -/
def create_header (st : Serializer) (len : Nat) : Except Error (List Nat) := do
  let total ← usize_to_u32 (st.len + len)
  .ok (toBE 4 total)

/-- `ser.rs: Serializer::reset_counter`. -/
def reset_counter (st : Serializer) : Serializer := ⟨st.output, 0⟩

/-- `ser.rs: serialize_str`.  The byte length written is the length of the
string's UTF-8 bytes minus the number of NUL bytes, and the payload appended
is the non-NUL bytes in order (the source's split-on-NUL /
filter-out-empty / for-each-append loop appends exactly those bytes;
`reserve` calls are capacity hints with no observable effect). -/
def serialize_str (st : Serializer) (s : List Nat) : Except Error Serializer := do
  let bytes := utf8Encode s
  let null_byte_counts := bytes.countP (· == 0)
  let len := bytes.length - null_byte_counts
  let st ← st.serialize_usize len
  if null_byte_counts == 0 then
    .ok (st.extend_from_slice bytes)
  else
    .ok (st.extend_from_slice (bytes.filter (· != 0)))

/-- `ser.rs: serialize_bytes`: 4-byte length then the raw bytes. -/
def serialize_bytes (st : Serializer) (v : List Nat) : Except Error Serializer := do
  let st ← st.serialize_usize v.length
  .ok (st.extend_from_slice v)

/-- `ser.rs: serialize_seq`: when the length is known write it as a 4-byte
count; when it is unknown (`None`) write nothing and succeed. -/
def serialize_seq (st : Serializer) (len : Option Nat) : Except Error Serializer :=
  match len with
  | some len => st.serialize_usize len
  | none => .ok st

/-- `ser.rs: serialize_unit_variant`: the 4-byte variant index
(`variant_index` is a `u32` in the serde API). -/
def serialize_unit_variant (st : Serializer) (variant_index : Nat) : Serializer :=
  st.serialize_u32 variant_index

end Serializer

mutual

/-- Value-level serialization: dispatch of `ser.rs`'s `serialize_*` methods
over the `Value` universe.  Composite values recurse through their fields
with no extra framing, exactly as the `SerializeSeq`/`SerializeTuple`/
`SerializeStruct` impls do. -/
def serializeValue : Value → Serializer → Except Error Serializer
  | .u8 v, st => .ok (st.push v)
  | .u16 v, st => .ok (st.extend_from_slice (toBE 2 v))
  | .u32 v, st => .ok (st.extend_from_slice (toBE 4 v))
  | .u64 v, st => .ok (st.extend_from_slice (toBE 8 v))
  | .i8 v, st => .ok (st.push (toU 8 v))
  | .i16 v, st => .ok (st.extend_from_slice (toBE 2 (toU 16 v)))
  | .i32 v, st => .ok (st.extend_from_slice (toBE 4 (toU 32 v)))
  | .i64 v, st => .ok (st.extend_from_slice (toBE 8 (toU 64 v)))
  | .bool b, st => .ok (st.serialize_u32 (if b then 1 else 0))
  | .char c, st => .ok (st.serialize_u32 c)
  | .str s, st => st.serialize_str s
  | .bytes b, st => st.serialize_bytes b
  | .unit, st => .ok st
  | .tuple fields, st => serializeFields fields st
  | .seq elems, st => do
      let st ← st.serialize_seq (some elems.length)
      serializeFields elems st
  | .enum idx fields, st => serializeFields fields (st.serialize_unit_variant idx)
  | .optNone, st => .ok st
  | .optSome v, st => serializeValue v st

/-- Serialize a list of fields/elements in order
(`serialize_element` / `serialize_field` loops). -/
def serializeFields : List Value → Serializer → Except Error Serializer
  | [], st => .ok st
  | v :: vs, st => do
      let st ← serializeValue v st
      serializeFields vs st

end

/-- `ser.rs: to_bytes`: serialize into a buffer seeded with 4 placeholder
bytes, then overwrite those 4 bytes with the header. -/
def to_bytes (v : Value) : Except Error (List Nat) := do
  let st ← serializeValue v ⟨[0, 0, 0, 0], 0⟩
  let header ← st.create_header 0
  .ok (header ++ st.output.drop 4)

/-- The shape of a target type, driving the deserializer the way a derived
`Deserialize` impl does: it tells the codec which `deserialize_*` entry
point is called and, for composites, the field shapes.  `enum` lists, per
variant index, the variant's field shapes. -/
inductive Shape where
  | u8
  | u16
  | u32
  | u64
  | i8
  | i16
  | i32
  | i64
  | bool
  | char
  | str
  | bytes
  | unit
  | option
  | tuple (fields : List Shape)
  | seq (elem : Shape)
  | enum (variants : List (List Shape))
deriving Repr

mutual

/-- Shape-driven deserialization: dispatch of `de.rs`'s `deserialize_*`
methods.  Primitive arms follow `impl_for_deserialize_primitive!` /
`deserialize_bool` / `deserialize_char` / `deserialize_str` /
`deserialize_bytes`; `tuple` follows `deserialize_tuple` (struct and tuple
struct forward to it); `seq` follows `deserialize_seq` (count, then that
many elements through `Access`); `enum` follows `deserialize_enum`, where
matching the index against the known variants (and erroring on an unknown
index) is the target type's own derived logic, which the codec forwards to
unchecked; `option` follows `deserialize_option`, which fails immediately. -/
def deserialize : Shape → Deserializer → Except Error (Value × Deserializer)
  | .u8, s => do
      let (b, s) ← s.next_byte
      .ok (.u8 b, s)
  | .u16, s => do
      let (bs, s) ← s.next_bytes_const 2
      .ok (.u16 (fromBE bs), s)
  | .u32, s => do
      let (bs, s) ← s.next_bytes_const 4
      .ok (.u32 (fromBE bs), s)
  | .u64, s => do
      let (bs, s) ← s.next_bytes_const 8
      .ok (.u64 (fromBE bs), s)
  | .i8, s => do
      let (b, s) ← s.next_byte
      .ok (.i8 (toI 8 b), s)
  | .i16, s => do
      let (bs, s) ← s.next_bytes_const 2
      .ok (.i16 (toI 16 (fromBE bs)), s)
  | .i32, s => do
      let (bs, s) ← s.next_bytes_const 4
      .ok (.i32 (toI 32 (fromBE bs)), s)
  | .i64, s => do
      let (bs, s) ← s.next_bytes_const 8
      .ok (.i64 (toI 64 (fromBE bs)), s)
  | .bool, s => do
      let (n, s) ← s.next_u32
      match n with
      | 1 => .ok (.bool true, s)
      | 0 => .ok (.bool false, s)
      | _ => .error .InvalidBoolEncoding
  | .char, s => do
      let (n, s) ← s.next_u32
      if validScalar n then .ok (.char n, s) else .error .InvalidChar
  | .str, s => do
      let (cow, s) ← s.parse_bytes
      match utf8Decode cow.data with
      | some cs => .ok (.str cs, s)
      | none => .error .InvalidStr
  | .bytes, s => do
      let (cow, s) ← s.parse_bytes
      .ok (.bytes cow.data, s)
  | .unit, s => .ok (.unit, s)
  | .option, _ => .error (.Unsupported "deserialize_option")
  | .tuple fields, s => do
      let (vs, s) ← deserializeFields fields s
      .ok (.tuple vs, s)
  | .seq elem, s => do
      let (n, s) ← s.next_u32
      let (vs, s) ← deserializeCount elem n s
      .ok (.seq vs, s)
  | .enum variants, s => do
      let (idx, s) ← s.next_u32
      let (vs, s) ← deserializeVariant variants idx s
      .ok (.enum idx vs, s)

termination_by sh s => (sizeOf sh, 0)
decreasing_by
  all_goals simp_wf
  all_goals first
  | (apply Prod.Lex.left; omega)
  | (apply Prod.Lex.right; omega)

/-- The target type's own derived dispatch on the 4-byte variant index: it
selects the field shapes of variant `idx` and decodes them, and rejects an
index with no matching variant.  This logic lives outside the codec (the
codec forwards the index unchecked); it is the standard behaviour of a
derived `Deserialize` on `(idx, variant)`. -/
def deserializeVariant : List (List Shape) → Nat → Deserializer → Except Error (List Value × Deserializer)
  | [], _, _ => .error (.Message "unknown variant index")
  | fs :: _, 0, s => deserializeFields fs s
  | _ :: rest, idx + 1, s => deserializeVariant rest idx s
termination_by variants _ _ => (sizeOf variants, 0)
decreasing_by
  all_goals simp_wf
  all_goals first
  | (apply Prod.Lex.left; omega)
  | (apply Prod.Lex.right; omega)

/-- Decode the fields of a tuple/struct/variant in order (the `Access`
sequence access with a statically known length). -/
def deserializeFields : List Shape → Deserializer → Except Error (List Value × Deserializer)
  | [], s => .ok ([], s)
  | sh :: rest, s => do
      let (v, s) ← deserialize sh s
      let (vs, s) ← deserializeFields rest s
      .ok (v :: vs, s)
termination_by l s => (sizeOf l, 0)
decreasing_by
  all_goals simp_wf
  all_goals first
  | (apply Prod.Lex.left; omega)
  | (apply Prod.Lex.right; omega)

/-- Decode `n` elements of one shape (the `Access` sequence access with the
count read from the stream). -/
def deserializeCount (elem : Shape) : Nat → Deserializer → Except Error (List Value × Deserializer)
  | 0, s => .ok ([], s)
  | n + 1, s => do
      let (v, s) ← deserialize elem s
      let (vs, s) ← deserializeCount elem n s
      .ok (v :: vs, s)
termination_by n s => (sizeOf elem, n + 1)
decreasing_by
  all_goals simp_wf
  all_goals first
  | (apply Prod.Lex.left; omega)
  | (apply Prod.Lex.right; omega)

end

/-- `de.rs: from_bytes`: deserialize from a contiguous buffer, returning the
value and the trailing unconsumed bytes. -/
def from_bytes (sh : Shape) (s : List Nat) : Except Error (Value × List Nat) := do
  let (v, d) ← deserialize sh (Deserializer.ofBytes s)
  .ok (v, d.slice)

/-- `src/src/ser_backer.rs: impl SerBacker for Vec<u8>`, `reset`:
`self.resize(4, 0)` — truncate to the 4-byte header region (filling with
zeroes only if the buffer was somehow shorter). -/
def SerBacker.reset (v : List Nat) : List Nat :=
  if v.length ≤ 4 then v ++ List.replicate (4 - v.length) 0 else v.take 4

mutual

/-- Well-formedness of a value at a shape: the value is of the Rust type the
shape describes.  Numeric bounds record the invariants of the corresponding
Rust machine types; `char`s and the scalars of a `str` are valid Unicode
scalar values; an enum's index is a `u32` selecting an existing variant,
whose field shapes the payload matches.  `Option` values are excluded:
`de.rs` cannot decode them. -/
def wf : Shape → Value → Bool
  | .u8, .u8 v => decide (v < 2 ^ 8)
  | .u16, .u16 v => decide (v < 2 ^ 16)
  | .u32, .u32 v => decide (v < 2 ^ 32)
  | .u64, .u64 v => decide (v < 2 ^ 64)
  | .i8, .i8 v => decide (-(2 ^ 7) ≤ v) && decide (v < 2 ^ 7)
  | .i16, .i16 v => decide (-(2 ^ 15) ≤ v) && decide (v < 2 ^ 15)
  | .i32, .i32 v => decide (-(2 ^ 31) ≤ v) && decide (v < 2 ^ 31)
  | .i64, .i64 v => decide (-(2 ^ 63) ≤ v) && decide (v < 2 ^ 63)
  | .bool, .bool _ => true
  | .char, .char c => validScalar c
  | .str, .str s => s.all validScalar
  | .bytes, .bytes _ => true
  | .unit, .unit => true
  | .tuple shapes, .tuple fields => wfFields shapes fields
  | .seq elem, .seq elems => wfElems elem elems
  | .enum variants, .enum idx fields =>
      decide (idx < 2 ^ 32) &&
        match variants[idx]? with
        | some fieldShapes => wfFields fieldShapes fields
        | none => false
  | _, _ => false
termination_by _ v => sizeOf v
decreasing_by
  all_goals simp_wf
  all_goals omega

/-- Pointwise well-formedness of a field list against a shape list. -/
def wfFields : List Shape → List Value → Bool
  | [], [] => true
  | sh :: shs, v :: vs => wf sh v && wfFields shs vs
  | _, _ => false
termination_by _ vs => sizeOf vs
decreasing_by
  all_goals simp_wf
  all_goals omega

/-- Well-formedness of sequence elements against one element shape. -/
def wfElems (elem : Shape) : List Value → Bool
  | [] => true
  | v :: vs => wf elem v && wfElems elem vs
termination_by vs => sizeOf vs
decreasing_by
  all_goals simp_wf
  all_goals omega

end

mutual

/-- A value is NUL-free when none of its strings contain the scalar 0. -/
def nulFree : Value → Bool
  | .str s => s.all (· != 0)
  | .tuple fields => nulFreeList fields
  | .seq elems => nulFreeList elems
  | .enum _ fields => nulFreeList fields
  | .optSome v => nulFree v
  | _ => true
termination_by v => sizeOf v
decreasing_by
  all_goals simp_wf
  all_goals omega

/-- NUL-freedom of a list of values. -/
def nulFreeList : List Value → Bool
  | [] => true
  | v :: vs => nulFree v && nulFreeList vs
termination_by vs => sizeOf vs
decreasing_by
  all_goals simp_wf
  all_goals omega

end

mutual

/-- Strip NUL scalars from every string of a value: the value that the
serializer actually commits to the wire (`serialize_str` drops NUL bytes). -/
def strip : Value → Value
  | .str s => .str (s.filter (· != 0))
  | .tuple fields => .tuple (stripList fields)
  | .seq elems => .seq (stripList elems)
  | .enum idx fields => .enum idx (stripList fields)
  | .optSome v => .optSome (strip v)
  | v => v
termination_by v => sizeOf v
decreasing_by
  all_goals simp_wf
  all_goals omega

/-- Strip NUL scalars in a list of values. -/
def stripList : List Value → List Value
  | [] => []
  | v :: vs => strip v :: stripList vs
termination_by vs => sizeOf vs
decreasing_by
  all_goals simp_wf
  all_goals omega

end

mutual

/-- The payload bytes that serializing `v` appends to the output (everything
after the 4-byte header for a top-level `to_bytes`).  This is the byte-level
reading of `serializeValue`, used to state its specification. -/
def body : Value → List Nat
  | .u8 v => [v]
  | .u16 v => toBE 2 v
  | .u32 v => toBE 4 v
  | .u64 v => toBE 8 v
  | .i8 v => [toU 8 v]
  | .i16 v => toBE 2 (toU 16 v)
  | .i32 v => toBE 4 (toU 32 v)
  | .i64 v => toBE 8 (toU 64 v)
  | .bool b => toBE 4 (if b then 1 else 0)
  | .char c => toBE 4 c
  | .str s =>
      toBE 4 ((utf8Encode s).length - (utf8Encode s).countP (· == 0)) ++
        (utf8Encode s).filter (· != 0)
  | .bytes b => toBE 4 b.length ++ b
  | .unit => []
  | .tuple fields => bodyList fields
  | .seq elems => toBE 4 elems.length ++ bodyList elems
  | .enum idx fields => toBE 4 idx ++ bodyList fields
  | .optNone => []
  | .optSome v => body v
termination_by v => sizeOf v
decreasing_by
  all_goals simp_wf
  all_goals omega

/-- Concatenated payload bytes of a list of values. -/
def bodyList : List Value → List Nat
  | [] => []
  | v :: vs => body v ++ bodyList vs
termination_by vs => sizeOf vs
decreasing_by
  all_goals simp_wf
  all_goals omega

end

/-! ### Arithmetic and byte-level lemmas -/

@[simp]
theorem toBE_length (w v : Nat) : (toBE w v).length = w := by
  induction w generalizing v with
  | zero => simp [toBE]
  | succ k ih => simp [toBE, ih]

theorem fromBE_append_singleton (l : List Nat) (b : Nat) :
    fromBE (l ++ [b]) = fromBE l * 256 + b := by
  simp [fromBE, List.foldl_append]

theorem fromBE_toBE (w v : Nat) (h : v < 256 ^ w) : fromBE (toBE w v) = v := by
  induction w generalizing v with
  | zero =>
    simp [Nat.pow_zero] at h
    simp [toBE, fromBE, h]
  | succ k ih =>
    have hdiv : v / 256 < 256 ^ k := by
      rw [Nat.div_lt_iff_lt_mul (by omega)]
      calc v < 256 ^ (k + 1) := h
        _ = 256 ^ k * 256 := by ring
    rw [toBE, fromBE_append_singleton, ih _ hdiv]
    omega

theorem toU_lt (w : Nat) (v : Int) : toU w v < 2 ^ w := by
  have h2 : (0 : Int) < 2 ^ w := by positivity
  have hcast : ((2 ^ w : Nat) : Int) = (2 : Int) ^ w := by push_cast; ring
  have := Int.emod_lt_of_pos v h2
  have := Int.emod_nonneg v (ne_of_gt h2)
  unfold toU
  omega

theorem toI_toU (w : Nat) (v : Int) (hw : 0 < w)
    (hlo : -(2 ^ (w - 1)) ≤ v) (hhi : v < 2 ^ (w - 1)) :
    toI w (toU w v) = v := by
  obtain ⟨k, rfl⟩ : ∃ k, w = k + 1 := ⟨w - 1, by omega⟩
  simp only [Nat.add_sub_cancel] at hlo hhi
  have hB : (0 : Int) < 2 ^ k := by positivity
  have haA : ((2 ^ k : Nat) : Int) = (2 : Int) ^ k := by push_cast; ring
  have e1 : ((2 : Int) ^ (k + 1)) = 2 * 2 ^ k := by ring
  have hme : v % ((2 : Int) ^ (k + 1)) = v ∨
      v % ((2 : Int) ^ (k + 1)) = v + 2 * 2 ^ k := by
    rcases le_or_lt 0 v with hv | hv
    · left
      exact Int.emod_eq_of_lt hv (by omega)
    · right
      have h1 : (v + 2 * 2 ^ k) % ((2 : Int) ^ (k + 1)) = v % ((2 : Int) ^ (k + 1)) := by
        rw [e1]
        have := Int.add_mul_emod_self_left (a := v) (b := 2 * 2 ^ k) (c := 1)
        simpa using this
      rw [← h1]
      exact Int.emod_eq_of_lt (by omega) (by omega)
  have hm0 : 0 ≤ v % ((2 : Int) ^ (k + 1)) := Int.emod_nonneg v (by positivity)
  have hm1 : v % ((2 : Int) ^ (k + 1)) < 2 * 2 ^ k := by
    have := Int.emod_lt_of_pos v (b := (2 : Int) ^ (k + 1)) (by positivity)
    omega
  unfold toI toU
  simp only [Nat.add_sub_cancel]
  generalize hy : v % ((2 : Int) ^ (k + 1)) = y at hme hm0 hm1
  rw [e1]
  split
  · rename_i hcond
    omega
  · rename_i hcond
    push_neg at hcond
    omega

theorem bind_ok {ε α β : Type} (a : α) (f : α → Except ε β) :
    (Except.ok a : Except ε α) >>= f = f a := rfl

theorem bind_error {ε α β : Type} (e : ε) (f : α → Except ε β) :
    (Except.error e : Except ε α) >>= f = .error e := rfl

theorem take_append_length {α : Type} (l r : List α) (n : Nat) (h : l.length = n) :
    (l ++ r).take n = l := by
  subst h
  simp

theorem drop_append_length {α : Type} (l r : List α) (n : Nat) (h : l.length = n) :
    (l ++ r).drop n = r := by
  subst h
  simp

/-! ### Evaluation of the read primitives on a contiguous buffer -/

namespace Deserializer

theorem update_slice_ofBytes (l : List Nat) :
    update_slice ⟨l, []⟩ = ⟨l, []⟩ := by
  cases l <;> simp [update_slice]

theorem fill_buffer_contig (n : Nat) (l : List Nat) :
    fill_buffer n ⟨l, []⟩ =
      if n ≤ l.length then .ok (l.take n, ⟨l.drop n, []⟩) else .error .Eof := by
  induction n using Nat.strong_induction_on generalizing l with
  | _ n ih =>
    rw [fill_buffer]
    by_cases h0 : n = 0
    · subst h0
      simp
    · simp only [if_neg h0]
      rw [update_slice_ofBytes]
      cases l with
      | nil =>
        simp only [List.isEmpty_nil, dite_true, List.length_nil]
        rw [if_neg (by omega)]
      | cons b bs =>
        simp only [List.isEmpty_cons, dite_false]
        rw [ih (n - min (b :: bs).length n) (by simp; omega)]
        by_cases hle : n ≤ (b :: bs).length
        · have hmin : min (b :: bs).length n = n := by omega
          rw [hmin, if_pos hle]
          simp
        · have hmin : min (b :: bs).length n = (b :: bs).length := by omega
          rw [hmin, if_neg hle]
          simp only [List.drop_length, List.length_nil]
          rw [if_neg (by omega)]
          simp

theorem next_byte_contig (l : List Nat) :
    next_byte ⟨l, []⟩ =
      match l with
      | [] => .error .Eof
      | b :: bs => .ok (b, ⟨bs, []⟩) := by
  cases l <;> simp [next_byte, update_slice_ofBytes]

theorem next_bytes_const_contig (n : Nat) (l : List Nat) :
    next_bytes_const n ⟨l, []⟩ =
      if n ≤ l.length then .ok (l.take n, ⟨l.drop n, []⟩) else .error .Eof :=
  fill_buffer_contig n l

theorem next_u32_contig (k : Nat) (rest : List Nat) (hk : k < 2 ^ 32) :
    next_u32 ⟨toBE 4 k ++ rest, []⟩ = .ok (k, ⟨rest, []⟩) := by
  have hlen : (toBE 4 k).length = 4 := toBE_length 4 k
  have hval : fromBE (toBE 4 k) = k := fromBE_toBE 4 k (by norm_num at hk ⊢; omega)
  rw [next_u32, next_bytes_const_contig, if_pos (by simp [hlen])]
  rw [take_append_length _ _ _ hlen, drop_append_length _ _ _ hlen]
  rw [bind_ok]
  simp [hval]

theorem next_bytes_contig (n : Nat) (l : List Nat) :
    next_bytes n ⟨l, []⟩ =
      if n ≤ l.length then .ok (.borrowed (l.take n), ⟨l.drop n, []⟩)
      else .error .Eof := by
  rw [next_bytes, update_slice_ofBytes]
  by_cases hle : n ≤ l.length
  · simp [hle]
  · simp only [if_neg hle]
    rw [fill_buffer_contig, if_neg hle]

theorem parse_bytes_contig (payload rest : List Nat)
    (hlen : payload.length < 2 ^ 32) :
    parse_bytes ⟨toBE 4 payload.length ++ (payload ++ rest), []⟩ =
      .ok (.borrowed payload, ⟨rest, []⟩) := by
  rw [parse_bytes, next_u32_contig _ _ hlen, bind_ok]
  show next_bytes payload.length ⟨payload ++ rest, []⟩ = _
  rw [next_bytes_contig, if_pos (by simp)]
  rw [take_append_length _ _ _ rfl, drop_append_length _ _ _ rfl]

end Deserializer

/-! ### Specification of the serializer: on success it appends `body v` -/

theorem filter_ne_of_countP_eq_zero (l : List Nat)
    (h : l.countP (· == 0) = 0) : l.filter (· != 0) = l := by
  rw [List.filter_eq_self]
  intro a ha
  have := (List.countP_eq_zero.mp h) a ha
  simpa using this

mutual

theorem serializeValue_spec : ∀ (v : Value) (st st' : Serializer),
    serializeValue v st = .ok st' →
    st' = ⟨st.output ++ body v, st.len + (body v).length⟩

  | .u8 v, st, st', h => by
    simp only [serializeValue, Except.ok.injEq] at h
    simp [← h, Serializer.push, body]
  | .u16 v, st, st', h => by
    simp only [serializeValue, Except.ok.injEq] at h
    simp [← h, Serializer.extend_from_slice, body]
  | .u32 v, st, st', h => by
    simp only [serializeValue, Except.ok.injEq] at h
    simp [← h, Serializer.extend_from_slice, body]
  | .u64 v, st, st', h => by
    simp only [serializeValue, Except.ok.injEq] at h
    simp [← h, Serializer.extend_from_slice, body]
  | .i8 v, st, st', h => by
    simp only [serializeValue, Except.ok.injEq] at h
    simp [← h, Serializer.push, body]
  | .i16 v, st, st', h => by
    simp only [serializeValue, Except.ok.injEq] at h
    simp [← h, Serializer.extend_from_slice, body]
  | .i32 v, st, st', h => by
    simp only [serializeValue, Except.ok.injEq] at h
    simp [← h, Serializer.extend_from_slice, body]
  | .i64 v, st, st', h => by
    simp only [serializeValue, Except.ok.injEq] at h
    simp [← h, Serializer.extend_from_slice, body]
  | .bool b, st, st', h => by
    simp only [serializeValue, Except.ok.injEq] at h
    simp [← h, Serializer.serialize_u32, Serializer.extend_from_slice, body]
  | .char c, st, st', h => by
    simp only [serializeValue, Except.ok.injEq] at h
    simp [← h, Serializer.serialize_u32, Serializer.extend_from_slice, body]
  | .str s, st, st', h => by
    rw [serializeValue, Serializer.serialize_str, Serializer.serialize_usize,
      Serializer.usize_to_u32] at h
    split at h
    · rw [bind_ok, bind_ok] at h
      split at h
      · rename_i hnull
        simp only [Except.ok.injEq] at h
        subst h
        have hfe : (utf8Encode s).filter (· != 0) = utf8Encode s :=
          filter_ne_of_countP_eq_zero _ (by simpa using hnull)
        simp [body, Serializer.serialize_u32, Serializer.extend_from_slice, hfe,
          List.append_assoc]
        omega
      · rename_i hnull
        simp only [Except.ok.injEq] at h
        subst h
        simp [body, Serializer.serialize_u32, Serializer.extend_from_slice,
          List.append_assoc]
        omega
    · rw [bind_error, bind_error] at h
      exact absurd h (by simp)
  | .bytes b, st, st', h => by
    rw [serializeValue, Serializer.serialize_bytes, Serializer.serialize_usize,
      Serializer.usize_to_u32] at h
    split at h
    · rw [bind_ok, bind_ok] at h
      simp only [Except.ok.injEq] at h
      subst h
      simp [body, Serializer.serialize_u32, Serializer.extend_from_slice,
        List.append_assoc]
      omega
    · rw [bind_error, bind_error] at h
      exact absurd h (by simp)
  | .unit, st, st', h => by
    simp only [serializeValue, Except.ok.injEq] at h
    simp [← h, body]
  | .tuple fields, st, st', h => by
    rw [serializeValue] at h
    have := serializeFields_spec fields st st' h
    simpa [body] using this
  | .seq elems, st, st', h => by
    rw [serializeValue, Serializer.serialize_seq, Serializer.serialize_usize,
      Serializer.usize_to_u32] at h
    split at h
    · rw [bind_ok, bind_ok] at h
      have := serializeFields_spec elems _ st' h
      rw [this]
      simp [body, Serializer.serialize_u32, Serializer.extend_from_slice,
        List.append_assoc]
      omega
    · rw [bind_error, bind_error] at h
      exact absurd h (by simp)
  | .enum idx fields, st, st', h => by
    rw [serializeValue] at h
    have := serializeFields_spec fields _ st' h
    rw [this]
    simp [body, Serializer.serialize_unit_variant, Serializer.serialize_u32,
      Serializer.extend_from_slice]
    omega
  | .optNone, st, st', h => by
    simp only [serializeValue, Except.ok.injEq] at h
    simp [← h, body]
  | .optSome v, st, st', h => by
    rw [serializeValue] at h
    have := serializeValue_spec v st st' h
    simpa [body] using this

theorem serializeFields_spec : ∀ (vs : List Value) (st st' : Serializer),
    serializeFields vs st = .ok st' →
    st' = ⟨st.output ++ bodyList vs, st.len + (bodyList vs).length⟩

  | [], st, st', h => by
    simp only [serializeFields, Except.ok.injEq] at h
    simp [← h, bodyList]
  | v :: vs, st, st', h => by
    rw [serializeFields] at h
    cases h1 : serializeValue v st with
    | error e => rw [h1, bind_error] at h; exact absurd h (by simp)
    | ok st1 =>
      rw [h1, bind_ok] at h
      have e1 := serializeValue_spec v st st1 h1
      have e2 := serializeFields_spec vs st1 st' h
      rw [e2, e1]
      simp [bodyList]
      omega

end

/-- `to_bytes` on success: 4-byte big-endian header holding the payload
length, then the payload bytes. -/
theorem to_bytes_spec (v : Value) (bs : List Nat) (h : to_bytes v = .ok bs) :
    bs = toBE 4 (body v).length ++ body v ∧ (body v).length < 2 ^ 32 := by
  rw [to_bytes] at h
  cases h1 : serializeValue v ⟨[0, 0, 0, 0], 0⟩ with
  | error e => rw [h1, bind_error] at h; exact absurd h (by simp)
  | ok st =>
    rw [h1, bind_ok] at h
    have e1 := serializeValue_spec v _ _ h1
    rw [Serializer.create_header, Serializer.usize_to_u32] at h
    split at h
    · rw [bind_ok, bind_ok] at h
      simp only [Except.ok.injEq] at h
      subst h
      rename_i hlt
      rw [e1] at hlt ⊢
      simp only [Nat.add_zero, Nat.zero_add] at hlt ⊢
      exact ⟨by simp, hlt⟩
    · rw [bind_error, bind_error] at h
      exact absurd h (by simp)

/-! ### UTF-8 round-trip lemmas -/

theorem utf8EncodeChar_decode (c : Nat) (hc : validScalar c = true) (rest : List Nat) :
    utf8Decode (utf8EncodeChar c ++ rest) = (utf8Decode rest).map (c :: ·) := by
  simp only [validScalar, Bool.or_eq_true, Bool.and_eq_true, decide_eq_true_eq] at hc
  rw [utf8EncodeChar]
  by_cases h1 : c < 0x80
  · rw [if_pos h1]
    simp only [List.cons_append, List.nil_append]
    rw [utf8Decode, if_pos h1]
  · rw [if_neg h1]
    by_cases h2 : c < 0x800
    · rw [if_pos h2]
      simp only [List.cons_append, List.nil_append]
      rw [utf8Decode, if_neg (by omega), if_neg (by omega), if_pos (by omega)]
      rw [utf8DecodeTail2, if_pos (by constructor <;> omega)]
      have hval : (0xC0 + c / 64 - 0xC0) * 64 + (0x80 + c % 64 - 0x80) = c := by
        omega
      rw [hval]
    · rw [if_neg h2]
      by_cases h3 : c < 0x10000
      · rw [if_pos h3]
        have hdd : c / 64 / 64 = c / 4096 := by
          rw [Nat.div_div_eq_div_mul]
        simp only [List.cons_append, List.nil_append]
        rw [utf8Decode, if_neg (by omega), if_neg (by omega), if_neg (by omega),
          if_pos (by omega)]
        rw [utf8DecodeTail3, if_pos (by
          refine ⟨?_, ?_, by omega, by omega⟩
          · split
            · rename_i he
              omega
            · omega
          · split
            · rename_i he
              omega
            · rename_i he
              omega)]
        have hval : (0xE0 + c / 4096 - 0xE0) * 4096 + (0x80 + c / 64 % 64 - 0x80) * 64 +
            (0x80 + c % 64 - 0x80) = c := by
          omega
        rw [hval]
      · rw [if_neg h3]
        have hdd : c / 64 / 64 = c / 4096 := by
          rw [Nat.div_div_eq_div_mul]
        have hdd2 : c / 4096 / 64 = c / 262144 := by
          rw [Nat.div_div_eq_div_mul]
        have hcr : c < 0x110000 := by omega
        simp only [List.cons_append, List.nil_append]
        rw [utf8Decode, if_neg (by omega), if_neg (by omega), if_neg (by omega),
          if_neg (by omega), if_pos (by omega)]
        rw [utf8DecodeTail4, if_pos (by
          refine ⟨?_, ?_, by omega, by omega, by omega, by omega⟩
          · split
            · rename_i he
              omega
            · omega
          · split
            · rename_i he
              omega
            · rename_i he
              omega)]
        have hval : (0xF0 + c / 262144 - 0xF0) * 262144 +
            (0x80 + c / 4096 % 64 - 0x80) * 4096 +
            (0x80 + c / 64 % 64 - 0x80) * 64 + (0x80 + c % 64 - 0x80) = c := by
          omega
        rw [hval]

theorem utf8Encode_nil : utf8Encode [] = [] := rfl

theorem utf8Encode_cons (c : Nat) (s : List Nat) :
    utf8Encode (c :: s) = utf8EncodeChar c ++ utf8Encode s := by
  simp [utf8Encode]

theorem utf8Decode_utf8Encode (s : List Nat) (h : s.all validScalar = true) :
    utf8Decode (utf8Encode s) = some s := by
  induction s with
  | nil =>
    rw [utf8Encode_nil, utf8Decode]
  | cons c s ih =>
    simp only [List.all_cons, Bool.and_eq_true] at h
    rw [utf8Encode_cons, utf8EncodeChar_decode c h.1, ih h.2]
    rfl

theorem utf8EncodeChar_zero : utf8EncodeChar 0 = [0] := by
  simp [utf8EncodeChar]

theorem zero_not_mem_utf8EncodeChar (c : Nat) (hc : c ≠ 0) :
    ¬0 ∈ utf8EncodeChar c := by
  rw [utf8EncodeChar]
  split_ifs <;> simp <;> omega

theorem utf8Encode_filter (s : List Nat) :
    (utf8Encode s).filter (· != 0) = utf8Encode (s.filter (· != 0)) := by
  induction s with
  | nil => rfl
  | cons c s ih =>
    rw [utf8Encode_cons, List.filter_append, ih, List.filter_cons]
    by_cases hc : c = 0
    · subst hc
      simp [utf8EncodeChar_zero]
    · rw [if_pos (by simpa using hc), utf8Encode_cons]
      congr 1
      rw [List.filter_eq_self]
      intro a ha
      have : a ≠ 0 := by
        intro h0
        exact zero_not_mem_utf8EncodeChar c hc (h0 ▸ ha)
      simpa using this

theorem length_sub_count_zero (l : List Nat) :
    l.length - l.countP (· == 0) = (l.filter (· != 0)).length := by
  induction l with
  | nil => rfl
  | cons a l ih =>
    have hle := List.countP_le_length (p := (· == 0)) (l := l)
    by_cases ha : a = 0 <;>
      simp [List.countP_cons, List.filter_cons, ha] <;> omega

/-! ### Round trip: decoding the serialized bytes recovers the value
(with NUL scalars stripped from strings) -/

namespace Deserializer

theorem next_byte_contig_cons (b : Nat) (bs : List Nat) :
    next_byte ⟨b :: bs, []⟩ = .ok (b, ⟨bs, []⟩) := rfl

theorem next_bytes_const_be (w n : Nat) (rest : List Nat) :
    next_bytes_const w ⟨toBE w n ++ rest, []⟩ = .ok (toBE w n, ⟨rest, []⟩) := by
  rw [next_bytes_const_contig, if_pos (by simp)]
  rw [take_append_length _ _ _ (toBE_length w n),
    drop_append_length _ _ _ (toBE_length w n)]

end Deserializer

theorem deserializeVariant_eq (variants : List (List Shape)) (idx : Nat)
    (fss : List Shape) (h : variants[idx]? = some fss) (s : Deserializer) :
    deserializeVariant variants idx s = deserializeFields fss s := by
  induction variants generalizing idx with
  | nil => simp at h
  | cons fs rest ih =>
    cases idx with
    | zero =>
      simp only [List.getElem?_cons_zero, Option.some.injEq] at h
      subst h
      rw [deserializeVariant]
    | succ i =>
      rw [deserializeVariant]
      exact ih i (by simpa using h)

mutual

theorem deserialize_body : ∀ (v : Value) (sh : Shape) (st st' : Serializer)
    (rest : List Nat), wf sh v = true → serializeValue v st = .ok st' →
    deserialize sh ⟨body v ++ rest, []⟩ = .ok (strip v, ⟨rest, []⟩)

  | .u8 n, sh, st, st', rest, hwf, hser => by
    cases sh
    case u8 =>
      simp only [body, List.cons_append, List.nil_append]
      rw [deserialize, Deserializer.next_byte_contig_cons, bind_ok]
      simp [strip]
    all_goals simp [wf] at hwf
  | .u16 n, sh, st, st', rest, hwf, hser => by
    cases sh
    case u16 =>
      have hlt : n < 2 ^ 16 := by simpa [wf] using hwf
      simp only [body]
      have hval : fromBE (toBE 2 n) = n := fromBE_toBE 2 n (by norm_num at hlt ⊢; omega)
      rw [deserialize, Deserializer.next_bytes_const_be, bind_ok]
      simp [hval, strip]
    all_goals simp [wf] at hwf
  | .u32 n, sh, st, st', rest, hwf, hser => by
    cases sh
    case u32 =>
      have hlt : n < 2 ^ 32 := by simpa [wf] using hwf
      simp only [body]
      have hval : fromBE (toBE 4 n) = n := fromBE_toBE 4 n (by norm_num at hlt ⊢; omega)
      rw [deserialize, Deserializer.next_bytes_const_be, bind_ok]
      simp [hval, strip]
    all_goals simp [wf] at hwf
  | .u64 n, sh, st, st', rest, hwf, hser => by
    cases sh
    case u64 =>
      have hlt : n < 2 ^ 64 := by simpa [wf] using hwf
      simp only [body]
      have hval : fromBE (toBE 8 n) = n := fromBE_toBE 8 n (by norm_num at hlt ⊢; omega)
      rw [deserialize, Deserializer.next_bytes_const_be, bind_ok]
      simp [hval, strip]
    all_goals simp [wf] at hwf
  | .i8 n, sh, st, st', rest, hwf, hser => by
    cases sh
    case i8 =>
      have hlt : -(2 ^ 7) ≤ n ∧ n < 2 ^ 7 := by simpa [wf] using hwf
      simp only [body, List.cons_append, List.nil_append]
      rw [deserialize, Deserializer.next_byte_contig_cons, bind_ok]
      have := toI_toU 8 n (by omega) hlt.1 hlt.2
      simp only [Nat.add_sub_cancel] at this ⊢
      simp [this, strip]
    all_goals simp [wf] at hwf
  | .i16 n, sh, st, st', rest, hwf, hser => by
    cases sh
    case i16 =>
      have hlt : -(2 ^ 15) ≤ n ∧ n < 2 ^ 15 := by simpa [wf] using hwf
      simp only [body]
      have hval : fromBE (toBE 2 (toU 16 n)) = toU 16 n :=
        fromBE_toBE 2 (toU 16 n) (by have := toU_lt 16 n; norm_num at this ⊢; omega)
      rw [deserialize, Deserializer.next_bytes_const_be, bind_ok]
      have hti := toI_toU 16 n (by omega) hlt.1 hlt.2
      simp only [Nat.add_sub_cancel] at hti
      simp [hval, hti, strip]
    all_goals simp [wf] at hwf
  | .i32 n, sh, st, st', rest, hwf, hser => by
    cases sh
    case i32 =>
      have hlt : -(2 ^ 31) ≤ n ∧ n < 2 ^ 31 := by simpa [wf] using hwf
      simp only [body]
      have hval : fromBE (toBE 4 (toU 32 n)) = toU 32 n :=
        fromBE_toBE 4 (toU 32 n) (by have := toU_lt 32 n; norm_num at this ⊢; omega)
      rw [deserialize, Deserializer.next_bytes_const_be, bind_ok]
      have hti := toI_toU 32 n (by omega) hlt.1 hlt.2
      simp only [Nat.add_sub_cancel] at hti
      simp [hval, hti, strip]
    all_goals simp [wf] at hwf
  | .i64 n, sh, st, st', rest, hwf, hser => by
    cases sh
    case i64 =>
      have hlt : -(2 ^ 63) ≤ n ∧ n < 2 ^ 63 := by simpa [wf] using hwf
      simp only [body]
      have hval : fromBE (toBE 8 (toU 64 n)) = toU 64 n :=
        fromBE_toBE 8 (toU 64 n) (by have := toU_lt 64 n; norm_num at this ⊢; omega)
      rw [deserialize, Deserializer.next_bytes_const_be, bind_ok]
      have hti := toI_toU 64 n (by omega) hlt.1 hlt.2
      simp only [Nat.add_sub_cancel] at hti
      simp [hval, hti, strip]
    all_goals simp [wf] at hwf
  | .bool b, sh, st, st', rest, hwf, hser => by
    cases sh
    case bool =>
      simp only [body]
      rw [deserialize]
      cases b
      · rw [show (if false = true then 1 else 0) = 0 from rfl,
          Deserializer.next_u32_contig 0 rest (by norm_num), bind_ok]
        simp [strip]
      · rw [show (if true = true then 1 else 0) = 1 from rfl,
          Deserializer.next_u32_contig 1 rest (by norm_num), bind_ok]
        simp [strip]
    all_goals simp [wf] at hwf
  | .char c, sh, st, st', rest, hwf, hser => by
    cases sh
    case char =>
      have hv : validScalar c = true := by simpa [wf] using hwf
      have hlt : c < 2 ^ 32 := by
        simp only [validScalar, Bool.or_eq_true, Bool.and_eq_true,
          decide_eq_true_eq] at hv
        norm_num
        omega
      simp only [body]
      rw [deserialize, Deserializer.next_u32_contig c rest hlt, bind_ok]
      simp [hv, strip]
    all_goals simp [wf] at hwf
  | .str s, sh, st, st', rest, hwf, hser => by
    cases sh
    case str =>
      have hall : s.all validScalar = true := by simpa [wf] using hwf
      rw [serializeValue, Serializer.serialize_str, Serializer.serialize_usize,
        Serializer.usize_to_u32] at hser
      split at hser
      · rename_i hlen
        have hlen2 : ((utf8Encode s).filter (· != 0)).length < 2 ^ 32 := by
          rw [← length_sub_count_zero]
          exact hlen
        simp only [body, length_sub_count_zero, List.append_assoc]
        rw [deserialize, Deserializer.parse_bytes_contig _ _ hlen2, bind_ok]
        have hdecode : utf8Decode ((utf8Encode s).filter (· != 0)) =
            some (s.filter (· != 0)) := by
          rw [utf8Encode_filter]
          apply utf8Decode_utf8Encode
          rw [List.all_eq_true] at hall ⊢
          intro x hx
          exact hall x (List.mem_of_mem_filter hx)
        simp only [Cow.data, hdecode]
        simp [strip]
      · rw [bind_error, bind_error] at hser
        exact absurd hser (by simp)
    all_goals simp [wf] at hwf
  | .bytes b, sh, st, st', rest, hwf, hser => by
    cases sh
    case bytes =>
      rw [serializeValue, Serializer.serialize_bytes, Serializer.serialize_usize,
        Serializer.usize_to_u32] at hser
      split at hser
      · rename_i hlen
        simp only [body, List.append_assoc]
        rw [deserialize, Deserializer.parse_bytes_contig _ _ hlen, bind_ok]
        simp [Cow.data, strip]
      · rw [bind_error, bind_error] at hser
        exact absurd hser (by simp)
    all_goals simp [wf] at hwf
  | .unit, sh, st, st', rest, hwf, hser => by
    cases sh
    case unit =>
      simp only [body, List.nil_append]
      rw [deserialize]
      simp [strip]
    all_goals simp [wf] at hwf
  | .tuple fields, sh, st, st', rest, hwf, hser => by
    cases sh
    case tuple shs =>
      have hwf2 : wfFields shs fields = true := by simpa [wf] using hwf
      rw [serializeValue] at hser
      simp only [body]
      rw [deserialize, deserializeFields_body fields shs st st' rest hwf2 hser,
        bind_ok]
      simp [strip]
    all_goals simp [wf] at hwf
  | .seq elems, sh, st, st', rest, hwf, hser => by
    cases sh
    case seq elemSh =>
      have hwf2 : wfElems elemSh elems = true := by simpa [wf] using hwf
      rw [serializeValue, Serializer.serialize_seq, Serializer.serialize_usize,
        Serializer.usize_to_u32] at hser
      split at hser
      · rename_i hcnt
        rw [bind_ok, bind_ok] at hser
        simp only [body, List.append_assoc]
        rw [deserialize, Deserializer.next_u32_contig _ _ hcnt, bind_ok]
        have hc := deserializeCount_body elems elemSh _ st' rest hwf2 hser
        simp [hc, strip, bind_ok]
      · rw [bind_error, bind_error] at hser
        exact absurd hser (by simp)
    all_goals simp [wf] at hwf
  | .enum idx fields, sh, st, st', rest, hwf, hser => by
    cases sh
    case enum variants =>
      have hwf' : (decide (idx < 2 ^ 32) &&
          match variants[idx]? with
          | some fieldShapes => wfFields fieldShapes fields
          | none => false) = true := by simpa [wf] using hwf
      rw [Bool.and_eq_true, decide_eq_true_eq] at hwf'
      obtain ⟨hidx, hmatch⟩ := hwf'
      cases hvar : variants[idx]? with
      | none => rw [hvar] at hmatch; simp at hmatch
      | some fss =>
        rw [hvar] at hmatch
        rw [serializeValue] at hser
        simp only [body, List.append_assoc]
        rw [deserialize, Deserializer.next_u32_contig _ _ hidx, bind_ok]
        have hv := deserializeVariant_eq variants idx fss hvar
        have hf := deserializeFields_body fields fss _ st' rest hmatch hser
        simp [hv, hf, strip, bind_ok]
    all_goals simp [wf] at hwf
  | .optNone, sh, st, st', rest, hwf, hser => by
    cases sh <;> simp [wf] at hwf
  | .optSome v, sh, st, st', rest, hwf, hser => by
    cases sh <;> simp [wf] at hwf
termination_by v sh st st' rest hwf hser => sizeOf v
decreasing_by
  all_goals simp_wf
  all_goals omega

theorem deserializeFields_body : ∀ (vs : List Value) (shs : List Shape)
    (st st' : Serializer) (rest : List Nat),
    wfFields shs vs = true → serializeFields vs st = .ok st' →
    deserializeFields shs ⟨bodyList vs ++ rest, []⟩ =
      .ok (stripList vs, ⟨rest, []⟩)

  | [], [], st, st', rest, hwf, hser => by
    simp only [bodyList, List.nil_append]
    rw [deserializeFields]
    simp [stripList]
  | [], sh :: shs, st, st', rest, hwf, hser => by simp [wfFields] at hwf
  | v :: vs, [], st, st', rest, hwf, hser => by simp [wfFields] at hwf
  | v :: vs, sh :: shs, st, st', rest, hwf, hser => by
    rw [wfFields, Bool.and_eq_true] at hwf
    rw [serializeFields] at hser
    cases h1 : serializeValue v st with
    | error e => rw [h1, bind_error] at hser; exact absurd hser (by simp)
    | ok st1 =>
      rw [h1, bind_ok] at hser
      simp only [bodyList, List.append_assoc]
      rw [deserializeFields,
        deserialize_body v sh st st1 (bodyList vs ++ rest) hwf.1 h1, bind_ok]
      have htail := deserializeFields_body vs shs st1 st' rest hwf.2 hser
      simp [htail, stripList, bind_ok]
termination_by vs shs st st' rest hwf hser => sizeOf vs
decreasing_by
  all_goals simp_wf
  all_goals omega

theorem deserializeCount_body : ∀ (vs : List Value) (elemSh : Shape)
    (st st' : Serializer) (rest : List Nat),
    wfElems elemSh vs = true → serializeFields vs st = .ok st' →
    deserializeCount elemSh vs.length ⟨bodyList vs ++ rest, []⟩ =
      .ok (stripList vs, ⟨rest, []⟩)

  | [], elemSh, st, st', rest, hwf, hser => by
    simp only [bodyList, List.nil_append, List.length_nil]
    rw [deserializeCount]
    simp [stripList]
  | v :: vs, elemSh, st, st', rest, hwf, hser => by
    rw [wfElems, Bool.and_eq_true] at hwf
    rw [serializeFields] at hser
    cases h1 : serializeValue v st with
    | error e => rw [h1, bind_error] at hser; exact absurd hser (by simp)
    | ok st1 =>
      rw [h1, bind_ok] at hser
      simp only [bodyList, List.append_assoc, List.length_cons]
      rw [deserializeCount,
        deserialize_body v elemSh st st1 (bodyList vs ++ rest) hwf.1 h1, bind_ok]
      have htail := deserializeCount_body vs elemSh st1 st' rest hwf.2 hser
      simp [htail, stripList, bind_ok]
termination_by vs elemSh st st' rest hwf hser => sizeOf vs
decreasing_by
  all_goals simp_wf
  all_goals omega

end

mutual

theorem strip_eq_of_nulFree : ∀ (v : Value), nulFree v = true → strip v = v
  | .u8 _, _ => by simp [strip]
  | .u16 _, _ => by simp [strip]
  | .u32 _, _ => by simp [strip]
  | .u64 _, _ => by simp [strip]
  | .i8 _, _ => by simp [strip]
  | .i16 _, _ => by simp [strip]
  | .i32 _, _ => by simp [strip]
  | .i64 _, _ => by simp [strip]
  | .bool _, _ => by simp [strip]
  | .char _, _ => by simp [strip]
  | .str s, h => by
    rw [nulFree] at h
    rw [strip]
    congr 1
    rw [List.filter_eq_self]
    rw [List.all_eq_true] at h
    exact fun a ha => h a ha
  | .bytes _, _ => by simp [strip]
  | .unit, _ => by simp [strip]
  | .tuple fields, h => by
    rw [nulFree] at h
    rw [strip, stripList_eq_of_nulFree fields h]
  | .seq elems, h => by
    rw [nulFree] at h
    rw [strip, stripList_eq_of_nulFree elems h]
  | .enum idx fields, h => by
    rw [nulFree] at h
    rw [strip, stripList_eq_of_nulFree fields h]
  | .optNone, _ => by simp [strip]
  | .optSome v, h => by
    rw [nulFree] at h
    rw [strip, strip_eq_of_nulFree v h]
termination_by v h => sizeOf v
decreasing_by
  all_goals simp_wf
  all_goals omega

theorem stripList_eq_of_nulFree : ∀ (vs : List Value),
    nulFreeList vs = true → stripList vs = vs
  | [], _ => by rw [stripList]
  | v :: vs, h => by
    rw [nulFreeList, Bool.and_eq_true] at h
    rw [stripList, strip_eq_of_nulFree v h.1, stripList_eq_of_nulFree vs h.2]
termination_by vs h => sizeOf vs
decreasing_by
  all_goals simp_wf
  all_goals omega

end

/-! ### Claim C1 -/

/-- C1 (counterexample): the round-trip claim fails as stated.  Serializing
the one-character string `"\x00"` drops its NUL byte (`ser.rs:
serialize_str`), so decoding the serialized bytes yields the empty string,
not the original value. -/
theorem C1_roundtrip_counterexample :
    to_bytes (.str [0]) = .ok [0, 0, 0, 4, 0, 0, 0, 0] ∧
    from_bytes .str [0, 0, 0, 0] = .ok (.str [], []) ∧
    Value.str [] ≠ Value.str [0] := by
  refine ⟨?_, ?_, by simp⟩
  · rw [to_bytes]
    rw [show serializeValue (.str [0]) ⟨[0, 0, 0, 0], 0⟩ = .ok ⟨[0, 0, 0, 0, 0, 0, 0, 0], 4⟩ by
      rw [serializeValue, Serializer.serialize_str]
      norm_num [utf8Encode, utf8EncodeChar_zero, Serializer.serialize_usize,
        Serializer.usize_to_u32, Serializer.serialize_u32,
        Serializer.extend_from_slice, toBE, bind_ok]]
    rw [bind_ok]
    rw [show Serializer.create_header ⟨[0, 0, 0, 0, 0, 0, 0, 0], 4⟩ 0 = .ok [0, 0, 0, 4] by
      rw [Serializer.create_header, Serializer.usize_to_u32]
      norm_num [toBE, bind_ok]]
    rw [bind_ok]
    norm_num
  · have h1 : Deserializer.parse_bytes ⟨[0, 0, 0, 0], []⟩ =
        .ok (.borrowed [], ⟨[], []⟩) := by
      rw [Deserializer.parse_bytes]
      rw [show ([0, 0, 0, 0] : List Nat) = toBE 4 0 ++ [] by norm_num [toBE]]
      rw [Deserializer.next_u32_contig 0 [] (by norm_num), bind_ok]
      simp [Deserializer.next_bytes_contig]
    have h2 : utf8Decode ([] : List Nat) = some [] := by rw [utf8Decode]
    rw [from_bytes, Deserializer.ofBytes, deserialize]
    simp [h1, Cow.data, h2, bind_ok]

/-- C1 (amended): for every well-formed value `v` whose strings contain no
NUL character, if top-level serialization succeeds then deserializing the
serialized bytes with the 4-byte header removed yields exactly `v` with no
trailing bytes.  (The original claim fails only for strings containing NUL
characters, which the serializer strips.) -/
theorem C1_roundtrip (sh : Shape) (v : Value) (bs : List Nat)
    (hwf : wf sh v = true) (hnul : nulFree v = true)
    (h : to_bytes v = .ok bs) :
    from_bytes sh (bs.drop 4) = .ok (v, []) := by
  obtain ⟨hbs, _⟩ := to_bytes_spec v bs h
  rw [to_bytes] at h
  cases h1 : serializeValue v ⟨[0, 0, 0, 0], 0⟩ with
  | error e => rw [h1, bind_error] at h; exact absurd h (by simp)
  | ok st =>
    have hdrop : bs.drop 4 = body v := by
      rw [hbs]
      exact drop_append_length _ _ _ (toBE_length _ _)
    have hrt := deserialize_body v sh _ st [] hwf h1
    rw [List.append_nil] at hrt
    rw [from_bytes, Deserializer.ofBytes, hdrop, hrt, bind_ok]
    simp [strip_eq_of_nulFree v hnul]

/-- C1 (witness): the amended round trip at the concrete value `0x12 : u8`. -/
theorem C1_roundtrip_witness :
    to_bytes (.u8 0x12) = .ok [0, 0, 0, 1, 0x12] ∧
    from_bytes .u8 [0x12] = .ok (.u8 0x12, []) := by
  have henc : to_bytes (.u8 0x12) = .ok [0, 0, 0, 1, 0x12] := by
    rw [to_bytes, serializeValue, Serializer.push]
    norm_num [bind_ok]
    rw [show Serializer.create_header ⟨[0, 0, 0, 0, 0x12], 1⟩ 0 = .ok [0, 0, 0, 1] by
      rw [Serializer.create_header, Serializer.usize_to_u32]
      norm_num [toBE, bind_ok]]
    rw [bind_ok]
    norm_num
  refine ⟨henc, ?_⟩
  have := C1_roundtrip .u8 (.u8 0x12) [0, 0, 0, 1, 0x12] (by simp [wf])
    (by simp [nulFree]) henc
  simpa using this

/-! ### Claim C3 -/

/-- C3: whenever top-level serialization succeeds, the output begins with a
4-byte big-endian integer equal to the total output length minus 4. -/
theorem C3_header (v : Value) (bs : List Nat) (h : to_bytes v = .ok bs) :
    4 ≤ bs.length ∧ bs.take 4 = toBE 4 (bs.length - 4) := by
  obtain ⟨hbs, _⟩ := to_bytes_spec v bs h
  subst hbs
  refine ⟨by simp, ?_⟩
  rw [take_append_length _ _ _ (toBE_length _ _)]
  have hl : (toBE 4 (body v).length ++ body v).length - 4 = (body v).length := by
    simp
  rw [hl]

/-- C3 (witness): the header property at the concrete value `0x1234 : u16`
(the spec's own scenario `encode(0x1234) = [0,0,0,2, 0x12, 0x34]`). -/
theorem C3_header_witness :
    to_bytes (.u16 0x1234) = .ok [0, 0, 0, 2, 0x12, 0x34] ∧
    [0, 0, 0, 2, 0x12, 0x34].take 4 = toBE 4 ([0, 0, 0, 2, 0x12, 0x34].length - 4) := by
  have henc : to_bytes (.u16 0x1234) = .ok [0, 0, 0, 2, 0x12, 0x34] := by
    rw [to_bytes, serializeValue]
    rw [show Serializer.extend_from_slice ⟨[0, 0, 0, 0], 0⟩ (toBE 2 0x1234) =
        ⟨[0, 0, 0, 0, 0x12, 0x34], 2⟩ by
      rw [Serializer.extend_from_slice]
      norm_num [toBE]]
    rw [bind_ok]
    rw [show Serializer.create_header ⟨[0, 0, 0, 0, 0x12, 0x34], 2⟩ 0 = .ok [0, 0, 0, 2] by
      rw [Serializer.create_header, Serializer.usize_to_u32]
      norm_num [toBE, bind_ok]]
    rw [bind_ok]
    norm_num
  exact ⟨henc, (C3_header (.u16 0x1234) _ henc).2⟩

/-! ### Claim C4 -/

theorem utf8Encode_countP_zero (s : List Nat) (h : s.all (· != 0) = true) :
    (utf8Encode s).countP (· == 0) = 0 := by
  rw [List.countP_eq_zero]
  intro a ha
  rw [utf8Encode, List.mem_flatten] at ha
  obtain ⟨l, hl, hal⟩ := ha
  rw [List.mem_map] at hl
  obtain ⟨c, hc, rfl⟩ := hl
  have hcne : c ≠ 0 := by
    rw [List.all_eq_true] at h
    simpa using h c hc
  intro h0
  rw [beq_iff_eq] at h0
  subst h0
  exact zero_not_mem_utf8EncodeChar c hcne hal

/-- C4 (counterexample): the claim fails for strings containing NUL bytes.
Serializing the string `"\x00"` appends `[0,0,0,0]` (a zero length and no
payload), not the claimed 4-byte length `1` followed by the raw byte `0`. -/
theorem C4_counterexample :
    Serializer.serialize_str ⟨[], 0⟩ [0] = .ok ⟨[0, 0, 0, 0], 4⟩ ∧
    toBE 4 (utf8Encode [0]).length ++ utf8Encode [0] = [0, 0, 0, 1, 0] ∧
    ([0, 0, 0, 0] : List Nat) ≠ [0, 0, 0, 1, 0] := by
  refine ⟨?_, ?_, by simp⟩
  · rw [Serializer.serialize_str]
    norm_num [utf8Encode, utf8EncodeChar_zero, Serializer.serialize_usize,
      Serializer.usize_to_u32, Serializer.serialize_u32,
      Serializer.extend_from_slice, toBE, bind_ok]
  · norm_num [utf8Encode, utf8EncodeChar_zero, toBE]

/-- C4 (amended): for byte sequences always, and for strings containing no
NUL byte, serialization appends exactly a 4-byte big-endian length equal to
the byte length followed by the raw bytes unmodified (a string's NUL bytes,
if any, are instead stripped and not counted); the spec's example holds:
`encode("hi") = [0,0,0,6, 0,0,0,2, 'h','i']` and decoding the bytes after
the header yields `("hi", [])`. -/
theorem C4_length_prefixed (s b : List Nat) (st st' su su' : Serializer)
    (hnul : s.all (· != 0) = true)
    (hs : Serializer.serialize_str st s = .ok st')
    (hb : Serializer.serialize_bytes su b = .ok su') :
    st'.output = st.output ++ toBE 4 (utf8Encode s).length ++ utf8Encode s ∧
    su'.output = su.output ++ toBE 4 b.length ++ b ∧
    to_bytes (.str [104, 105]) = .ok [0, 0, 0, 6, 0, 0, 0, 2, 104, 105] ∧
    from_bytes .str [0, 0, 0, 2, 104, 105] = .ok (.str [104, 105], []) := by
  have hcnt : (utf8Encode s).countP (· == 0) = 0 := utf8Encode_countP_zero s hnul
  have henc2 : utf8Encode [104, 105] = [104, 105] := by
    norm_num [utf8Encode, utf8EncodeChar]
  refine ⟨?_, ?_, ?_, ?_⟩
  · rw [Serializer.serialize_str, Serializer.serialize_usize,
      Serializer.usize_to_u32] at hs
    split at hs
    · rw [bind_ok, bind_ok, hcnt] at hs
      simp only [beq_self_eq_true, if_pos] at hs
      simp only [Except.ok.injEq] at hs
      subst hs
      simp [Serializer.serialize_u32, Serializer.extend_from_slice, hcnt,
        List.append_assoc]
    · rw [bind_error, bind_error] at hs
      exact absurd hs (by simp)
  · rw [Serializer.serialize_bytes, Serializer.serialize_usize,
      Serializer.usize_to_u32] at hb
    split at hb
    · rw [bind_ok, bind_ok] at hb
      simp only [Except.ok.injEq] at hb
      subst hb
      simp [Serializer.serialize_u32, Serializer.extend_from_slice,
        List.append_assoc]
    · rw [bind_error, bind_error] at hb
      exact absurd hb (by simp)
  · rw [to_bytes]
    rw [show serializeValue (.str [104, 105]) ⟨[0, 0, 0, 0], 0⟩ =
        .ok ⟨[0, 0, 0, 0, 0, 0, 0, 2, 104, 105], 6⟩ by
      rw [serializeValue, Serializer.serialize_str]
      norm_num [henc2, Serializer.serialize_usize, Serializer.usize_to_u32,
        Serializer.serialize_u32, Serializer.extend_from_slice, toBE, bind_ok]]
    rw [bind_ok]
    rw [show Serializer.create_header ⟨[0, 0, 0, 0, 0, 0, 0, 2, 104, 105], 6⟩ 0 =
        .ok [0, 0, 0, 6] by
      rw [Serializer.create_header, Serializer.usize_to_u32]
      norm_num [toBE, bind_ok]]
    rw [bind_ok]
    norm_num
  · have h1 : Deserializer.parse_bytes ⟨[0, 0, 0, 2, 104, 105], []⟩ =
        .ok (.borrowed [104, 105], ⟨[], []⟩) := by
      have := Deserializer.parse_bytes_contig [104, 105] []
        (by norm_num)
      rw [show toBE 4 ([104, 105] : List Nat).length ++ ([104, 105] ++ []) =
          [0, 0, 0, 2, 104, 105] by norm_num [toBE]] at this
      exact this
    have h2 : utf8Decode [104, 105] = some [104, 105] := by
      rw [← henc2]
      exact utf8Decode_utf8Encode [104, 105] (by norm_num [validScalar])
    rw [from_bytes, Deserializer.ofBytes, deserialize]
    simp [h1, Cow.data, h2, bind_ok]

/-- C4 (witness): the amended claim at concrete inputs: the string `"hi"`
and the byte sequence `[7]`, both serialized from a fresh serializer. -/
theorem C4_length_prefixed_witness :
    Serializer.serialize_str ⟨[], 0⟩ [104, 105] = .ok ⟨[0, 0, 0, 2, 104, 105], 6⟩ ∧
    ([0, 0, 0, 2, 104, 105] : List Nat) =
      [] ++ toBE 4 (utf8Encode [104, 105]).length ++ utf8Encode [104, 105] ∧
    Serializer.serialize_bytes ⟨[], 0⟩ [7] = .ok ⟨[0, 0, 0, 1, 7], 5⟩ ∧
    ([0, 0, 0, 1, 7] : List Nat) = [] ++ toBE 4 ([7] : List Nat).length ++ [7] := by
  have henc2 : utf8Encode [104, 105] = [104, 105] := by
    norm_num [utf8Encode, utf8EncodeChar]
  have hs : Serializer.serialize_str ⟨[], 0⟩ [104, 105] =
      .ok ⟨[0, 0, 0, 2, 104, 105], 6⟩ := by
    rw [Serializer.serialize_str]
    norm_num [henc2, Serializer.serialize_usize, Serializer.usize_to_u32,
      Serializer.serialize_u32, Serializer.extend_from_slice, toBE, bind_ok]
  have hb : Serializer.serialize_bytes ⟨[], 0⟩ [7] = .ok ⟨[0, 0, 0, 1, 7], 5⟩ := by
    rw [Serializer.serialize_bytes]
    norm_num [Serializer.serialize_usize, Serializer.usize_to_u32,
      Serializer.serialize_u32, Serializer.extend_from_slice, toBE, bind_ok]
  have hmain := C4_length_prefixed [104, 105] [7] ⟨[], 0⟩ _ ⟨[], 0⟩ _
    (by norm_num) hs hb
  refine ⟨hs, ?_, hb, ?_⟩
  · have := hmain.1
    simpa using this.symm
  · have := hmain.2.1
    simpa using this.symm

/-! ### Claim C8 -/

/-- C8: a 4-byte big-endian `0` in boolean position decodes to `false`, `1`
decodes to `true`, and every other 4-byte value fails with
`InvalidBoolEncoding`. -/
theorem C8_bool_domain (n : Nat) (rest : List Nat) (hn : n < 2 ^ 32) :
    from_bytes .bool (toBE 4 n ++ rest) =
      if n = 0 then .ok (.bool false, rest)
      else if n = 1 then .ok (.bool true, rest)
      else .error .InvalidBoolEncoding := by
  rw [from_bytes, Deserializer.ofBytes, deserialize,
    Deserializer.next_u32_contig n rest hn, bind_ok]
  rcases n with _ | _ | k
  · simp [bind_ok]
  · simp [bind_ok]
  · simp [bind_error]

/-- C8 (witness): boolean decoding at the concrete 4-byte values 0, 1, 5. -/
theorem C8_bool_domain_witness :
    from_bytes .bool [0, 0, 0, 0] = .ok (.bool false, []) ∧
    from_bytes .bool [0, 0, 0, 1] = .ok (.bool true, []) ∧
    from_bytes .bool [0, 0, 0, 5] = .error .InvalidBoolEncoding := by
  have h0 := C8_bool_domain 0 [] (by norm_num)
  have h1 := C8_bool_domain 1 [] (by norm_num)
  have h5 := C8_bool_domain 5 [] (by norm_num)
  norm_num [toBE] at h0 h1 h5
  exact ⟨h0, h1, h5⟩

/-! ### Truncation detection (claim C6) -/

namespace Deserializer

theorem next_byte_nil : next_byte ⟨[], []⟩ = .error .Eof := rfl

theorem next_bytes_const_short (w : Nat) (l : List Nat) (h : l.length < w) :
    next_bytes_const w ⟨l, []⟩ = .error .Eof := by
  rw [next_bytes_const_contig, if_neg (by omega)]

theorem next_u32_short (l : List Nat) (h : l.length < 4) :
    next_u32 ⟨l, []⟩ = .error .Eof := by
  rw [next_u32, next_bytes_const_contig, if_neg (by omega), bind_error]

theorem next_bytes_short (n : Nat) (l : List Nat) (h : l.length < n) :
    next_bytes n ⟨l, []⟩ = .error .Eof := by
  rw [next_bytes_contig, if_neg (by omega)]

end Deserializer

mutual

theorem deserialize_trunc : ∀ (v : Value) (sh : Shape) (st st' : Serializer)
    (k : Nat), wf sh v = true → serializeValue v st = .ok st' →
    k < (body v).length →
    deserialize sh ⟨(body v).take k, []⟩ = .error .Eof

  | .u8 n, sh, st, st', k, hwf, hser, hk => by
    cases sh
    case u8 =>
      have hk0 : k = 0 := by
        simp [body] at hk
        omega
      subst hk0
      simp only [body, List.take_zero]
      rw [deserialize, Deserializer.next_byte_nil, bind_error]
    all_goals simp [wf] at hwf
  | .u16 n, sh, st, st', k, hwf, hser, hk => by
    cases sh
    case u16 =>
      simp only [body, toBE_length] at hk
      simp only [body]
      rw [deserialize, Deserializer.next_bytes_const_short 2 _
        (by simp [List.length_take]; omega), bind_error]
    all_goals simp [wf] at hwf
  | .u32 n, sh, st, st', k, hwf, hser, hk => by
    cases sh
    case u32 =>
      simp only [body, toBE_length] at hk
      simp only [body]
      rw [deserialize, Deserializer.next_bytes_const_short 4 _
        (by simp [List.length_take]; omega), bind_error]
    all_goals simp [wf] at hwf
  | .u64 n, sh, st, st', k, hwf, hser, hk => by
    cases sh
    case u64 =>
      simp only [body, toBE_length] at hk
      simp only [body]
      rw [deserialize, Deserializer.next_bytes_const_short 8 _
        (by simp [List.length_take]; omega), bind_error]
    all_goals simp [wf] at hwf
  | .i8 n, sh, st, st', k, hwf, hser, hk => by
    cases sh
    case i8 =>
      have hk0 : k = 0 := by
        simp [body] at hk
        omega
      subst hk0
      simp only [body, List.take_zero]
      rw [deserialize, Deserializer.next_byte_nil, bind_error]
    all_goals simp [wf] at hwf
  | .i16 n, sh, st, st', k, hwf, hser, hk => by
    cases sh
    case i16 =>
      simp only [body, toBE_length] at hk
      simp only [body]
      rw [deserialize, Deserializer.next_bytes_const_short 2 _
        (by simp [List.length_take]; omega), bind_error]
    all_goals simp [wf] at hwf
  | .i32 n, sh, st, st', k, hwf, hser, hk => by
    cases sh
    case i32 =>
      simp only [body, toBE_length] at hk
      simp only [body]
      rw [deserialize, Deserializer.next_bytes_const_short 4 _
        (by simp [List.length_take]; omega), bind_error]
    all_goals simp [wf] at hwf
  | .i64 n, sh, st, st', k, hwf, hser, hk => by
    cases sh
    case i64 =>
      simp only [body, toBE_length] at hk
      simp only [body]
      rw [deserialize, Deserializer.next_bytes_const_short 8 _
        (by simp [List.length_take]; omega), bind_error]
    all_goals simp [wf] at hwf
  | .bool b, sh, st, st', k, hwf, hser, hk => by
    cases sh
    case bool =>
      simp only [body, toBE_length] at hk
      simp only [body]
      rw [deserialize, Deserializer.next_u32_short _
        (by simp [List.length_take]; omega), bind_error]
    all_goals simp [wf] at hwf
  | .char c, sh, st, st', k, hwf, hser, hk => by
    cases sh
    case char =>
      simp only [body, toBE_length] at hk
      simp only [body]
      rw [deserialize, Deserializer.next_u32_short _
        (by simp [List.length_take]; omega), bind_error]
    all_goals simp [wf] at hwf
  | .str s, sh, st, st', k, hwf, hser, hk => by
    cases sh
    case str =>
      rw [serializeValue, Serializer.serialize_str, Serializer.serialize_usize,
        Serializer.usize_to_u32] at hser
      split at hser
      · rename_i hlen
        simp only [body, length_sub_count_zero] at hk ⊢
        by_cases hk4 : k < 4
        · rw [deserialize, Deserializer.parse_bytes, Deserializer.next_u32_short _
            (by simp [List.length_take, toBE_length]; omega), bind_error, bind_error]
        · rw [List.take_append_eq_append_take,
            List.take_of_length_le (by simp [toBE_length]; omega)]
          rw [deserialize, Deserializer.parse_bytes,
            Deserializer.next_u32_contig _ _
              (by rw [← length_sub_count_zero]; exact hlen), bind_ok]
          have hshort : Deserializer.next_bytes
              ((utf8Encode s).filter (· != 0)).length
              ⟨((utf8Encode s).filter (· != 0)).take (k - 4), []⟩ =
                .error .Eof := by
            apply Deserializer.next_bytes_short
            simp only [List.length_take]
            simp only [List.length_append, toBE_length] at hk
            omega
          simp [hshort, bind_error]
      · rw [bind_error, bind_error] at hser
        exact absurd hser (by simp)
    all_goals simp [wf] at hwf
  | .bytes b, sh, st, st', k, hwf, hser, hk => by
    cases sh
    case bytes =>
      rw [serializeValue, Serializer.serialize_bytes, Serializer.serialize_usize,
        Serializer.usize_to_u32] at hser
      split at hser
      · rename_i hlen
        simp only [body] at hk ⊢
        by_cases hk4 : k < 4
        · rw [deserialize, Deserializer.parse_bytes, Deserializer.next_u32_short _
            (by simp [List.length_take, toBE_length]; omega), bind_error, bind_error]
        · rw [List.take_append_eq_append_take,
            List.take_of_length_le (by simp [toBE_length]; omega)]
          rw [deserialize, Deserializer.parse_bytes,
            Deserializer.next_u32_contig _ _ hlen, bind_ok]
          have hshort : Deserializer.next_bytes b.length
              ⟨b.take (k - 4), []⟩ = .error .Eof := by
            apply Deserializer.next_bytes_short
            simp only [List.length_take]
            simp only [List.length_append, toBE_length] at hk
            omega
          simp [hshort, bind_error]
      · rw [bind_error, bind_error] at hser
        exact absurd hser (by simp)
    all_goals simp [wf] at hwf
  | .unit, sh, st, st', k, hwf, hser, hk => by
    simp [body] at hk
  | .tuple fields, sh, st, st', k, hwf, hser, hk => by
    cases sh
    case tuple shs =>
      have hwf2 : wfFields shs fields = true := by simpa [wf] using hwf
      rw [serializeValue] at hser
      simp only [body] at hk ⊢
      rw [deserialize, deserializeFields_trunc fields shs st st' k hwf2 hser hk,
        bind_error]
    all_goals simp [wf] at hwf
  | .seq elems, sh, st, st', k, hwf, hser, hk => by
    cases sh
    case seq elemSh =>
      have hwf2 : wfElems elemSh elems = true := by simpa [wf] using hwf
      rw [serializeValue, Serializer.serialize_seq, Serializer.serialize_usize,
        Serializer.usize_to_u32] at hser
      split at hser
      · rename_i hcnt
        rw [bind_ok, bind_ok] at hser
        simp only [body] at hk ⊢
        by_cases hk4 : k < 4
        · rw [deserialize, Deserializer.next_u32_short _
            (by simp [List.length_take, toBE_length]; omega), bind_error]
        · rw [List.take_append_eq_append_take,
            List.take_of_length_le (by simp [toBE_length]; omega)]
          rw [deserialize, Deserializer.next_u32_contig _ _ hcnt, bind_ok]
          have htr : deserializeCount elemSh elems.length
              ⟨(bodyList elems).take (k - 4), []⟩ = .error .Eof := by
            apply deserializeCount_trunc elems elemSh _ st' _ hwf2 hser
            simp only [List.length_append, toBE_length] at hk
            omega
          simp [htr, bind_error]
      · rw [bind_error, bind_error] at hser
        exact absurd hser (by simp)
    all_goals simp [wf] at hwf
  | .enum idx fields, sh, st, st', k, hwf, hser, hk => by
    cases sh
    case enum variants =>
      have hwf' : (decide (idx < 2 ^ 32) &&
          match variants[idx]? with
          | some fieldShapes => wfFields fieldShapes fields
          | none => false) = true := by simpa [wf] using hwf
      rw [Bool.and_eq_true, decide_eq_true_eq] at hwf'
      obtain ⟨hidx, hmatch⟩ := hwf'
      cases hvar : variants[idx]? with
      | none => rw [hvar] at hmatch; simp at hmatch
      | some fss =>
        rw [hvar] at hmatch
        rw [serializeValue] at hser
        simp only [body] at hk ⊢
        by_cases hk4 : k < 4
        · rw [deserialize, Deserializer.next_u32_short _
            (by simp [List.length_take, toBE_length]; omega), bind_error]
        · rw [List.take_append_eq_append_take,
            List.take_of_length_le (by simp [toBE_length]; omega)]
          rw [deserialize, Deserializer.next_u32_contig _ _ hidx, bind_ok]
          have hv := deserializeVariant_eq variants idx fss hvar
          have htr : deserializeFields fss
              ⟨(bodyList fields).take (k - 4), []⟩ = .error .Eof := by
            apply deserializeFields_trunc fields fss _ st' _ hmatch hser
            simp only [List.length_append, toBE_length] at hk
            omega
          simp [hv, htr, bind_error]
    all_goals simp [wf] at hwf
  | .optNone, sh, st, st', k, hwf, hser, hk => by
    cases sh <;> simp [wf] at hwf
  | .optSome v, sh, st, st', k, hwf, hser, hk => by
    cases sh <;> simp [wf] at hwf
termination_by v sh st st' k hwf hser hk => sizeOf v
decreasing_by
  all_goals simp_wf
  all_goals omega

theorem deserializeFields_trunc : ∀ (vs : List Value) (shs : List Shape)
    (st st' : Serializer) (k : Nat),
    wfFields shs vs = true → serializeFields vs st = .ok st' →
    k < (bodyList vs).length →
    deserializeFields shs ⟨(bodyList vs).take k, []⟩ = .error .Eof

  | [], [], st, st', k, hwf, hser, hk => by simp [bodyList] at hk
  | [], sh :: shs, st, st', k, hwf, hser, hk => by simp [wfFields] at hwf
  | v :: vs, [], st, st', k, hwf, hser, hk => by simp [wfFields] at hwf
  | v :: vs, sh :: shs, st, st', k, hwf, hser, hk => by
    rw [wfFields, Bool.and_eq_true] at hwf
    rw [serializeFields] at hser
    cases h1 : serializeValue v st with
    | error e => rw [h1, bind_error] at hser; exact absurd hser (by simp)
    | ok st1 =>
      rw [h1, bind_ok] at hser
      simp only [bodyList] at hk ⊢
      by_cases hlt : k < (body v).length
      · rw [List.take_append_eq_append_take,
          Nat.sub_eq_zero_of_le (le_of_lt hlt), List.take_zero, List.append_nil]
        rw [deserializeFields,
          deserialize_trunc v sh st st1 k hwf.1 h1 hlt, bind_error]
      · rw [List.take_append_eq_append_take,
          List.take_of_length_le (by omega)]
        rw [deserializeFields,
          deserialize_body v sh st st1 _ hwf.1 h1, bind_ok]
        have htr : deserializeFields shs
            ⟨(bodyList vs).take (k - (body v).length), []⟩ = .error .Eof := by
          apply deserializeFields_trunc vs shs st1 st' _ hwf.2 hser
          simp only [List.length_append] at hk
          omega
        simp [htr, bind_error]
termination_by vs shs st st' k hwf hser hk => sizeOf vs
decreasing_by
  all_goals simp_wf
  all_goals omega

theorem deserializeCount_trunc : ∀ (vs : List Value) (elemSh : Shape)
    (st st' : Serializer) (k : Nat),
    wfElems elemSh vs = true → serializeFields vs st = .ok st' →
    k < (bodyList vs).length →
    deserializeCount elemSh vs.length ⟨(bodyList vs).take k, []⟩ = .error .Eof

  | [], elemSh, st, st', k, hwf, hser, hk => by simp [bodyList] at hk
  | v :: vs, elemSh, st, st', k, hwf, hser, hk => by
    rw [wfElems, Bool.and_eq_true] at hwf
    rw [serializeFields] at hser
    cases h1 : serializeValue v st with
    | error e => rw [h1, bind_error] at hser; exact absurd hser (by simp)
    | ok st1 =>
      rw [h1, bind_ok] at hser
      simp only [bodyList, List.length_cons] at hk ⊢
      by_cases hlt : k < (body v).length
      · rw [List.take_append_eq_append_take,
          Nat.sub_eq_zero_of_le (le_of_lt hlt), List.take_zero, List.append_nil]
        rw [deserializeCount,
          deserialize_trunc v elemSh st st1 k hwf.1 h1 hlt, bind_error]
      · rw [List.take_append_eq_append_take,
          List.take_of_length_le (by omega)]
        rw [deserializeCount,
          deserialize_body v elemSh st st1 _ hwf.1 h1, bind_ok]
        have htr : deserializeCount elemSh vs.length
            ⟨(bodyList vs).take (k - (body v).length), []⟩ = .error .Eof := by
          apply deserializeCount_trunc vs elemSh st1 st' _ hwf.2 hser
          simp only [List.length_append] at hk
          omega
        simp [htr, bind_error]
termination_by vs elemSh st st' k hwf hser hk => sizeOf vs
decreasing_by
  all_goals simp_wf
  all_goals omega

end

/-- C6: decoding any strict prefix of a valid (non-empty) encoding, in
contiguous mode, fails with `Error::Eof`. -/
theorem C6_truncation (sh : Shape) (v : Value) (bs : List Nat) (k : Nat)
    (hwf : wf sh v = true) (hb : to_bytes v = .ok bs)
    (hk : k < bs.length - 4) :
    from_bytes sh ((bs.drop 4).take k) = .error .Eof := by
  obtain ⟨hbs, _⟩ := to_bytes_spec v bs hb
  rw [to_bytes] at hb
  cases h1 : serializeValue v ⟨[0, 0, 0, 0], 0⟩ with
  | error e => rw [h1, bind_error] at hb; exact absurd hb (by simp)
  | ok st =>
    have hdrop : bs.drop 4 = body v := by
      rw [hbs]
      exact drop_append_length _ _ _ (toBE_length _ _)
    have hklen : k < (body v).length := by
      rw [hbs] at hk
      simpa using hk
    rw [from_bytes, Deserializer.ofBytes, hdrop,
      deserialize_trunc v sh _ st k hwf h1 hklen, bind_error]

/-- C6 (witness): decoding the first byte of the two-byte encoding of
`0x1234 : u16` (the spec's one-byte-short scenario) fails with `Eof`. -/
theorem C6_truncation_witness :
    from_bytes .u16 [0x12] = .error .Eof := by
  have henc : to_bytes (.u16 0x1234) = .ok [0, 0, 0, 2, 0x12, 0x34] := by
    rw [to_bytes, serializeValue]
    rw [show Serializer.extend_from_slice ⟨[0, 0, 0, 0], 0⟩ (toBE 2 0x1234) =
        ⟨[0, 0, 0, 0, 0x12, 0x34], 2⟩ by
      rw [Serializer.extend_from_slice]
      norm_num [toBE]]
    rw [bind_ok]
    rw [show Serializer.create_header ⟨[0, 0, 0, 0, 0x12, 0x34], 2⟩ 0 = .ok [0, 0, 0, 2] by
      rw [Serializer.create_header, Serializer.usize_to_u32]
      norm_num [toBE, bind_ok]]
    rw [bind_ok]
    norm_num
  have := C6_truncation .u16 (.u16 0x1234) [0, 0, 0, 2, 0x12, 0x34] 1
    (by simp [wf]) henc (by norm_num)
  simpa using this

/-! ### Chunked reads: everything is determined by the flattened stream -/

namespace Deserializer

theorem flatten_dropWhile_isEmpty (l : List (List Nat)) :
    (l.dropWhile List.isEmpty).flatten = l.flatten := by
  induction l with
  | nil => rfl
  | cons c rest ih =>
    rw [List.dropWhile_cons]
    by_cases hc : c.isEmpty = true
    · rw [if_pos hc, ih]
      rw [List.isEmpty_iff] at hc
      simp [hc]
    · rw [if_neg hc]

theorem head_dropWhile_isEmpty (l : List (List Nat)) (c : List Nat)
    (rest : List (List Nat)) (h : l.dropWhile List.isEmpty = c :: rest) :
    c.isEmpty = false := by
  induction l with
  | nil => simp at h
  | cons a l ih =>
    rw [List.dropWhile_cons] at h
    split at h
    · exact ih h
    · rename_i ha
      cases h
      simpa using ha

theorem flatten_update_slice (s : Deserializer) :
    (update_slice s).flatten = s.flatten := by
  rw [update_slice]
  split
  · rename_i hempty
    rw [List.isEmpty_iff] at hempty
    cases hd : s.iter.dropWhile List.isEmpty with
    | nil =>
      have := flatten_dropWhile_isEmpty s.iter
      rw [hd] at this
      simp [flatten, hempty, ← this]
    | cons c rest =>
      have := flatten_dropWhile_isEmpty s.iter
      rw [hd] at this
      simp [flatten, hempty, ← this]
  · rfl

theorem update_slice_nil_iff (s : Deserializer) :
    (update_slice s).slice = [] ↔ s.flatten = [] := by
  constructor
  · intro h
    rw [update_slice] at h
    split at h
    · rename_i hempty
      rw [List.isEmpty_iff] at hempty
      split at h
      · rename_i hd
        have := flatten_dropWhile_isEmpty s.iter
        rw [hd] at this
        simp [flatten, hempty, ← this]
      · rename_i c rest hd
        have hcne := head_dropWhile_isEmpty s.iter c rest hd
        have hc : c = [] := h
        rw [hc] at hcne
        simp at hcne
    · rename_i hne
      rw [h] at hne
      simp at hne
  · intro h
    have hf := flatten_update_slice s
    rw [h] at hf
    rw [flatten] at hf
    exact (List.append_eq_nil.mp hf).1

theorem update_slice_iter_flatten (s : Deserializer) :
    (update_slice s).slice ++ (update_slice s).iter.flatten = s.flatten :=
  flatten_update_slice s

theorem fill_buffer_flatten (n : Nat) (s : Deserializer) :
    (n ≤ s.flatten.length →
      ∃ s', fill_buffer n s = .ok (s.flatten.take n, s') ∧
        s'.flatten = s.flatten.drop n) ∧
    (s.flatten.length < n → fill_buffer n s = .error .Eof) := by
  induction n using Nat.strong_induction_on generalizing s with
  | _ n ih =>
    rw [fill_buffer]
    by_cases h0 : n = 0
    · subst h0
      refine ⟨fun _ => ⟨s, ?_⟩, fun h => by omega⟩
      simp
    · rw [if_neg h0]
      have hflat := flatten_update_slice s
      by_cases hsl : (update_slice s).slice.isEmpty = true
      · have hempty : s.flatten = [] :=
          (update_slice_nil_iff s).mp (List.isEmpty_iff.mp hsl)
        rw [dif_pos hsl]
        refine ⟨fun hle => by rw [hempty] at hle; simp at hle; omega,
          fun _ => rfl⟩
      · rw [dif_neg hsl]
        have hne : (update_slice s).slice ≠ [] := by
          simpa [List.isEmpty_iff] using hsl
        have hk1 : 1 ≤ (update_slice s).slice.length := List.length_pos.mpr hne
        have hmle1 : min (update_slice s).slice.length n ≤ (update_slice s).slice.length :=
          Nat.min_le_left _ _
        have hmle2 : min (update_slice s).slice.length n ≤ n := Nat.min_le_right _ _
        have hsf : (update_slice s).slice.length ≤ s.flatten.length := by
          rw [← hflat, flatten]
          simp
        have hrec := ih (n - min (update_slice s).slice.length n)
          (by omega) ⟨(update_slice s).slice.drop (min (update_slice s).slice.length n),
            (update_slice s).iter⟩
        have hrecflat : (Deserializer.mk
            ((update_slice s).slice.drop (min (update_slice s).slice.length n))
            (update_slice s).iter).flatten =
              s.flatten.drop (min (update_slice s).slice.length n) := by
          rw [flatten, ← hflat, flatten]
          rw [List.drop_append_of_le_length (by omega)]
        constructor
        · intro hle
          obtain ⟨s', hok, hs'⟩ := hrec.1 (by
            rw [hrecflat]
            simp only [List.length_drop]
            omega)
          rw [hok]
          refine ⟨s', ?_, ?_⟩
          · have htake : (update_slice s).slice.take (min (update_slice s).slice.length n) ++
                (Deserializer.mk
                  ((update_slice s).slice.drop (min (update_slice s).slice.length n))
                  (update_slice s).iter).flatten.take
                    (n - min (update_slice s).slice.length n) =
                  s.flatten.take n := by
              rw [hrecflat]
              rw [show (update_slice s).slice.take (min (update_slice s).slice.length n) =
                  s.flatten.take (min (update_slice s).slice.length n) by
                rw [← hflat, flatten,
                  List.take_append_of_le_length (by omega)]]
              rw [← List.take_add]
              congr 1
              omega
            rw [← htake]
          · rw [hs', hrecflat, List.drop_drop]
            congr 1
            omega
        · intro hlt
          have herr := hrec.2 (by
            rw [hrecflat]
            simp only [List.length_drop]
            omega)
          rw [herr]

theorem next_byte_flatten (s : Deserializer) :
    (s.flatten = [] → next_byte s = .error .Eof) ∧
    (∀ b t, s.flatten = b :: t →
      ∃ s', next_byte s = .ok (b, s') ∧ s'.flatten = t) := by
  rw [next_byte]
  have hflat := flatten_update_slice s
  constructor
  · intro h
    rw [show (update_slice s).slice = [] from (update_slice_nil_iff s).mpr h]
  · intro b t h
    cases hsl : (update_slice s).slice with
    | nil =>
      have := (update_slice_nil_iff s).mp hsl
      rw [this] at h
      simp at h
    | cons b' bs =>
      rw [← hflat, flatten, hsl] at h
      simp only [List.cons_append, List.cons.injEq] at h
      refine ⟨⟨bs, (update_slice s).iter⟩, ?_, ?_⟩
      · rw [h.1]
      · rw [flatten, h.2]

theorem next_u32_flatten (s : Deserializer) :
    (4 ≤ s.flatten.length →
      ∃ s', next_u32 s = .ok (fromBE (s.flatten.take 4), s') ∧
        s'.flatten = s.flatten.drop 4) ∧
    (s.flatten.length < 4 → next_u32 s = .error .Eof) := by
  have hf := fill_buffer_flatten 4 s
  constructor
  · intro hle
    obtain ⟨s', hok, hs'⟩ := hf.1 hle
    refine ⟨s', ?_, hs'⟩
    rw [next_u32, next_bytes_const, hok, bind_ok]
  · intro hlt
    rw [next_u32, next_bytes_const, hf.2 hlt, bind_error]

theorem next_bytes_flatten (n : Nat) (s : Deserializer) :
    (n ≤ s.flatten.length →
      ∃ cow s', next_bytes n s = .ok (cow, s') ∧
        cow.data = s.flatten.take n ∧ s'.flatten = s.flatten.drop n) ∧
    (s.flatten.length < n → next_bytes n s = .error .Eof) := by
  rw [next_bytes]
  have hflat := flatten_update_slice s
  constructor
  · intro hle
    by_cases hsl : n ≤ (update_slice s).slice.length
    · rw [if_pos hsl]
      refine ⟨_, _, rfl, ?_, ?_⟩
      · rw [← hflat, flatten, List.take_append_of_le_length hsl]
        rfl
      · rw [flatten, ← hflat, flatten, List.drop_append_of_le_length hsl]
    · rw [if_neg hsl]
      have hf := (fill_buffer_flatten n (update_slice s)).1 (by rw [hflat]; omega)
      obtain ⟨s', hok, hs'⟩ := hf
      rw [hok]
      exact ⟨_, s', rfl, by simp [Cow.data, hflat], by rw [hs', hflat]⟩
  · intro hlt
    rw [if_neg (by rw [← hflat] at hlt; rw [flatten] at hlt; simp at hlt; omega)]
    rw [(fill_buffer_flatten n (update_slice s)).2 (by rw [hflat]; omega)]

theorem next_u32_contig_general (l : List Nat) :
    next_u32 ⟨l, []⟩ =
      if 4 ≤ l.length then .ok (fromBE (l.take 4), ⟨l.drop 4, []⟩)
      else .error .Eof := by
  rw [next_u32, next_bytes_const, fill_buffer_contig]
  split
  · rw [bind_ok]
  · rw [bind_error]

theorem next_byte_contig_general (l : List Nat) :
    next_byte ⟨l, []⟩ =
      match l with
      | [] => .error .Eof
      | b :: bs => .ok (b, ⟨bs, []⟩) :=
  next_byte_contig l

/-- Chunked `parse_bytes` is simulated by contiguous `parse_bytes` on the
flattened stream: same error, or same bytes (possibly owned instead of
borrowed) and corresponding states. -/
theorem parse_bytes_chunked (s : Deserializer) :
    (∀ cow t, parse_bytes ⟨s.flatten, []⟩ = .ok (cow, t) →
      ∃ cow' s', parse_bytes s = .ok (cow', s') ∧ cow'.data = cow.data ∧
        s'.flatten = t.slice ∧ t.iter = []) ∧
    (∀ e, parse_bytes ⟨s.flatten, []⟩ = .error e → parse_bytes s = .error e) := by
  constructor
  · intro cow t h
    rw [parse_bytes, next_u32_contig_general] at h
    split at h
    · rename_i hle
      rw [bind_ok] at h
      replace h : next_bytes (fromBE (s.flatten.take 4))
          ⟨s.flatten.drop 4, []⟩ = .ok (cow, t) := h
      rw [next_bytes_contig] at h
      split at h
      · rename_i hL
        simp only [Except.ok.injEq, Prod.mk.injEq] at h
        obtain ⟨hcow, ht⟩ := h
        obtain ⟨s2, hu32, hs2⟩ := (next_u32_flatten s).1 hle
        obtain ⟨cow', s3, hnb, hdata, hs3⟩ :=
          (next_bytes_flatten (fromBE (s.flatten.take 4)) s2).1
            (by rw [hs2]; simpa using hL)
        refine ⟨cow', s3, ?_, ?_, ?_, ?_⟩
        · rw [parse_bytes, hu32, bind_ok]
          exact hnb
        · rw [hdata, hs2, ← hcow]
          rfl
        · rw [hs3, hs2, ← ht]
        · rw [← ht]
      · simp at h
    · rw [bind_error] at h
      simp at h
  · intro e h
    rw [parse_bytes, next_u32_contig_general] at h
    split at h
    · rename_i hle
      rw [bind_ok] at h
      replace h : next_bytes (fromBE (s.flatten.take 4))
          ⟨s.flatten.drop 4, []⟩ = .error e := h
      rw [next_bytes_contig] at h
      split at h
      · simp at h
      · rename_i hL
        simp only [Except.error.injEq] at h
        subst h
        obtain ⟨s2, hu32, hs2⟩ := (next_u32_flatten s).1 hle
        rw [parse_bytes, hu32, bind_ok]
        show next_bytes (fromBE (s.flatten.take 4)) s2 = .error .Eof
        apply (next_bytes_flatten _ s2).2
        rw [hs2]
        simpa using hL
    · rw [bind_error] at h
      simp only [Except.error.injEq] at h
      subst h
      rename_i hgt
      rw [parse_bytes, (next_u32_flatten s).2 (by omega), bind_error]

end Deserializer

/-- Simulation of a fixed-width read followed by a pure constructor: the
chunked run returns the same value as the contiguous run on the flattened
stream, or the same error. -/
theorem chunked_fixed (w : Nat) (mk : List Nat → Value) (s : Deserializer) :
    (∀ v t,
      (do
        let (bs, s1) ← Deserializer.next_bytes_const w (⟨s.flatten, []⟩ : Deserializer)
        Except.ok (mk bs, s1)) = .ok (v, t) →
      ∃ s', (do
        let (bs, s1) ← Deserializer.next_bytes_const w s
        Except.ok (mk bs, s1)) = .ok (v, s') ∧ s'.flatten = t.slice ∧ t.iter = []) ∧
    (∀ e,
      (do
        let (bs, s1) ← Deserializer.next_bytes_const w (⟨s.flatten, []⟩ : Deserializer)
        Except.ok (mk bs, s1)) = .error e →
      (do
        let (bs, s1) ← Deserializer.next_bytes_const w s
        Except.ok (mk bs, s1)) = .error e) := by
  constructor
  · intro v t h
    cases hc : Deserializer.next_bytes_const w (⟨s.flatten, []⟩ : Deserializer) with
    | error e => rw [hc, bind_error] at h; exact absurd h (by simp)
    | ok p =>
      obtain ⟨bs, t1⟩ := p
      rw [hc, bind_ok] at h
      replace h : Except.ok (mk bs, t1) = Except.ok (v, t) := h
      simp only [Except.ok.injEq, Prod.mk.injEq] at h
      obtain ⟨hv, ht⟩ := h
      rw [Deserializer.next_bytes_const_contig] at hc
      split at hc
      · rename_i hle
        simp only [Except.ok.injEq, Prod.mk.injEq] at hc
        obtain ⟨hbs, ht1⟩ := hc
        obtain ⟨s2, hok, hs2⟩ := (Deserializer.fill_buffer_flatten w s).1 hle
        refine ⟨s2, ?_, ?_, ?_⟩
        · rw [Deserializer.next_bytes_const, hok, bind_ok]
          show Except.ok (mk (s.flatten.take w), s2) = _
          rw [hbs, hv]
        · rw [hs2, ← ht, ← ht1]
        · rw [← ht, ← ht1]
      · simp at hc
  · intro e h
    cases hc : Deserializer.next_bytes_const w (⟨s.flatten, []⟩ : Deserializer) with
    | ok p =>
      obtain ⟨bs, t1⟩ := p
      rw [hc, bind_ok] at h
      replace h : Except.ok (mk bs, t1) = Except.error e := h
      simp at h
    | error e2 =>
      rw [hc, bind_error] at h
      replace h : (Except.error e2 : Except Error (Value × Deserializer)) = .error e := h
      simp only [Except.error.injEq] at h
      subst h
      rw [Deserializer.next_bytes_const_contig] at hc
      split at hc
      · simp at hc
      · rename_i hgt
        simp only [Except.error.injEq] at hc
        subst hc
        rw [Deserializer.next_bytes_const,
          (Deserializer.fill_buffer_flatten w s).2 (by simpa using hgt), bind_error]

/-- Simulation of a single-byte read followed by a pure constructor. -/
theorem chunked_byte (mk : Nat → Value) (s : Deserializer) :
    (∀ v t,
      (do
        let (b, s1) ← Deserializer.next_byte (⟨s.flatten, []⟩ : Deserializer)
        Except.ok (mk b, s1)) = .ok (v, t) →
      ∃ s', (do
        let (b, s1) ← Deserializer.next_byte s
        Except.ok (mk b, s1)) = .ok (v, s') ∧ s'.flatten = t.slice ∧ t.iter = []) ∧
    (∀ e,
      (do
        let (b, s1) ← Deserializer.next_byte (⟨s.flatten, []⟩ : Deserializer)
        Except.ok (mk b, s1)) = .error e →
      (do
        let (b, s1) ← Deserializer.next_byte s
        Except.ok (mk b, s1)) = .error e) := by
  constructor
  · intro v t h
    cases hfl : s.flatten with
    | nil =>
      rw [Deserializer.next_byte_contig_general, hfl] at h
      replace h : (Except.error Error.Eof : Except Error (Value × Deserializer)) =
        .ok (v, t) := h
      simp at h
    | cons b bs =>
      rw [Deserializer.next_byte_contig_general, hfl] at h
      replace h : Except.ok (mk b, (⟨bs, []⟩ : Deserializer)) = .ok (v, t) := h
      simp only [Except.ok.injEq, Prod.mk.injEq] at h
      obtain ⟨hv, ht⟩ := h
      obtain ⟨s2, hok, hs2⟩ := (Deserializer.next_byte_flatten s).2 b bs hfl
      refine ⟨s2, ?_, ?_, ?_⟩
      · rw [hok, bind_ok]
        show Except.ok (mk b, s2) = _
        rw [hv]
      · rw [hs2, ← ht]
      · rw [← ht]
  · intro e h
    cases hfl : s.flatten with
    | nil =>
      rw [Deserializer.next_byte_contig_general, hfl] at h
      replace h : (Except.error Error.Eof : Except Error (Value × Deserializer)) =
        .error e := h
      simp only [Except.error.injEq] at h
      subst h
      rw [(Deserializer.next_byte_flatten s).1 hfl, bind_error]
    | cons b bs =>
      rw [Deserializer.next_byte_contig_general, hfl] at h
      replace h : Except.ok (mk b, (⟨bs, []⟩ : Deserializer)) = .error e := h
      simp at h

mutual

/-- Chunked decoding is simulated by contiguous decoding of the flattened
stream: identical value on success (with the remaining chunked stream
flattening to the contiguous trailing slice), identical error on failure. -/
theorem deserialize_chunked : ∀ (sh : Shape) (s : Deserializer),
    (∀ v t, deserialize sh ⟨s.flatten, []⟩ = .ok (v, t) →
      ∃ s', deserialize sh s = .ok (v, s') ∧ s'.flatten = t.slice ∧ t.iter = []) ∧
    (∀ e, deserialize sh ⟨s.flatten, []⟩ = .error e → deserialize sh s = .error e)

  | .u8, s => by
    have hgen := chunked_byte (fun b => .u8 b) s
    constructor
    · intro v t h
      rw [deserialize] at h
      obtain ⟨s', h1, h2, h3⟩ := hgen.1 v t h
      exact ⟨s', by rw [deserialize]; exact h1, h2, h3⟩
    · intro e h
      rw [deserialize] at h
      rw [deserialize]
      exact hgen.2 e h
  | .i8, s => by
    have hgen := chunked_byte (fun b => .i8 (toI 8 b)) s
    constructor
    · intro v t h
      rw [deserialize] at h
      obtain ⟨s', h1, h2, h3⟩ := hgen.1 v t h
      exact ⟨s', by rw [deserialize]; exact h1, h2, h3⟩
    · intro e h
      rw [deserialize] at h
      rw [deserialize]
      exact hgen.2 e h
  | .u16, s => by
    have hgen := chunked_fixed 2 (fun bs => .u16 (fromBE bs)) s
    constructor
    · intro v t h
      rw [deserialize] at h
      obtain ⟨s', h1, h2, h3⟩ := hgen.1 v t h
      exact ⟨s', by rw [deserialize]; exact h1, h2, h3⟩
    · intro e h
      rw [deserialize] at h
      rw [deserialize]
      exact hgen.2 e h
  | .u32, s => by
    have hgen := chunked_fixed 4 (fun bs => .u32 (fromBE bs)) s
    constructor
    · intro v t h
      rw [deserialize] at h
      obtain ⟨s', h1, h2, h3⟩ := hgen.1 v t h
      exact ⟨s', by rw [deserialize]; exact h1, h2, h3⟩
    · intro e h
      rw [deserialize] at h
      rw [deserialize]
      exact hgen.2 e h
  | .u64, s => by
    have hgen := chunked_fixed 8 (fun bs => .u64 (fromBE bs)) s
    constructor
    · intro v t h
      rw [deserialize] at h
      obtain ⟨s', h1, h2, h3⟩ := hgen.1 v t h
      exact ⟨s', by rw [deserialize]; exact h1, h2, h3⟩
    · intro e h
      rw [deserialize] at h
      rw [deserialize]
      exact hgen.2 e h
  | .i16, s => by
    have hgen := chunked_fixed 2 (fun bs => .i16 (toI 16 (fromBE bs))) s
    constructor
    · intro v t h
      rw [deserialize] at h
      obtain ⟨s', h1, h2, h3⟩ := hgen.1 v t h
      exact ⟨s', by rw [deserialize]; exact h1, h2, h3⟩
    · intro e h
      rw [deserialize] at h
      rw [deserialize]
      exact hgen.2 e h
  | .i32, s => by
    have hgen := chunked_fixed 4 (fun bs => .i32 (toI 32 (fromBE bs))) s
    constructor
    · intro v t h
      rw [deserialize] at h
      obtain ⟨s', h1, h2, h3⟩ := hgen.1 v t h
      exact ⟨s', by rw [deserialize]; exact h1, h2, h3⟩
    · intro e h
      rw [deserialize] at h
      rw [deserialize]
      exact hgen.2 e h
  | .i64, s => by
    have hgen := chunked_fixed 8 (fun bs => .i64 (toI 64 (fromBE bs))) s
    constructor
    · intro v t h
      rw [deserialize] at h
      obtain ⟨s', h1, h2, h3⟩ := hgen.1 v t h
      exact ⟨s', by rw [deserialize]; exact h1, h2, h3⟩
    · intro e h
      rw [deserialize] at h
      rw [deserialize]
      exact hgen.2 e h
  | .bool, s => by
    constructor
    · intro v t h
      rw [deserialize, Deserializer.next_u32_contig_general] at h
      split at h
      · rename_i hle
        rw [bind_ok] at h
        obtain ⟨s2, hok, hs2⟩ := (Deserializer.next_u32_flatten s).1 hle
        rcases hm : fromBE (s.flatten.take 4) with _ | _ | k
        · rw [hm] at h
          replace h : Except.ok (Value.bool false, (⟨s.flatten.drop 4, []⟩ : Deserializer)) =
            .ok (v, t) := h
          simp only [Except.ok.injEq, Prod.mk.injEq] at h
          obtain ⟨hv, ht⟩ := h
          rw [hm] at hok
          refine ⟨s2, ?_, ?_, ?_⟩
          · rw [deserialize, hok, bind_ok]
            show Except.ok (Value.bool false, s2) = _
            rw [hv]
          · rw [hs2, ← ht]
          · rw [← ht]
        · rw [hm] at h
          replace h : Except.ok (Value.bool true, (⟨s.flatten.drop 4, []⟩ : Deserializer)) =
            .ok (v, t) := h
          simp only [Except.ok.injEq, Prod.mk.injEq] at h
          obtain ⟨hv, ht⟩ := h
          rw [hm] at hok
          refine ⟨s2, ?_, ?_, ?_⟩
          · rw [deserialize, hok, bind_ok]
            show Except.ok (Value.bool true, s2) = _
            rw [hv]
          · rw [hs2, ← ht]
          · rw [← ht]
        · rw [hm] at h
          replace h : (Except.error Error.InvalidBoolEncoding :
            Except Error (Value × Deserializer)) = .ok (v, t) := h
          simp at h
      · rw [bind_error] at h
        simp at h
    · intro e h
      rw [deserialize, Deserializer.next_u32_contig_general] at h
      split at h
      · rename_i hle
        rw [bind_ok] at h
        obtain ⟨s2, hok, hs2⟩ := (Deserializer.next_u32_flatten s).1 hle
        rcases hm : fromBE (s.flatten.take 4) with _ | _ | k
        · rw [hm] at h
          replace h : Except.ok (Value.bool false, (⟨s.flatten.drop 4, []⟩ : Deserializer)) =
            .error e := h
          simp at h
        · rw [hm] at h
          replace h : Except.ok (Value.bool true, (⟨s.flatten.drop 4, []⟩ : Deserializer)) =
            .error e := h
          simp at h
        · rw [hm] at h
          replace h : (Except.error Error.InvalidBoolEncoding :
            Except Error (Value × Deserializer)) = .error e := h
          simp only [Except.error.injEq] at h
          subst h
          rw [hm] at hok
          rw [deserialize, hok, bind_ok]
          show (Except.error Error.InvalidBoolEncoding :
            Except Error (Value × Deserializer)) = _
          rfl
      · rw [bind_error] at h
        simp only [Except.error.injEq] at h
        subst h
        rename_i hgt
        rw [deserialize, (Deserializer.next_u32_flatten s).2 (by omega), bind_error]
  | .char, s => by
    constructor
    · intro v t h
      rw [deserialize, Deserializer.next_u32_contig_general] at h
      split at h
      · rename_i hle
        rw [bind_ok] at h
        obtain ⟨s2, hok, hs2⟩ := (Deserializer.next_u32_flatten s).1 hle
        by_cases hv32 : validScalar (fromBE (s.flatten.take 4)) = true
        · replace h : (if validScalar (fromBE (s.flatten.take 4)) = true then
              (Except.ok (Value.char (fromBE (s.flatten.take 4)),
                (⟨s.flatten.drop 4, []⟩ : Deserializer)) :
                Except Error (Value × Deserializer))
              else Except.error Error.InvalidChar) = .ok (v, t) := h
          rw [if_pos hv32] at h
          simp only [Except.ok.injEq, Prod.mk.injEq] at h
          obtain ⟨hv, ht⟩ := h
          refine ⟨s2, ?_, ?_, ?_⟩
          · rw [deserialize, hok, bind_ok]
            show (if validScalar (fromBE (s.flatten.take 4)) = true then
              (Except.ok (Value.char (fromBE (s.flatten.take 4)), s2) :
                Except Error (Value × Deserializer))
              else Except.error Error.InvalidChar) = _
            rw [if_pos hv32, hv]
          · rw [hs2, ← ht]
          · rw [← ht]
        · replace h : (if validScalar (fromBE (s.flatten.take 4)) = true then
              (Except.ok (Value.char (fromBE (s.flatten.take 4)),
                (⟨s.flatten.drop 4, []⟩ : Deserializer)) :
                Except Error (Value × Deserializer))
              else Except.error Error.InvalidChar) = .ok (v, t) := h
          rw [if_neg hv32] at h
          simp at h
      · rw [bind_error] at h
        simp at h
    · intro e h
      rw [deserialize, Deserializer.next_u32_contig_general] at h
      split at h
      · rename_i hle
        rw [bind_ok] at h
        obtain ⟨s2, hok, hs2⟩ := (Deserializer.next_u32_flatten s).1 hle
        by_cases hv32 : validScalar (fromBE (s.flatten.take 4)) = true
        · replace h : (if validScalar (fromBE (s.flatten.take 4)) = true then
              (Except.ok (Value.char (fromBE (s.flatten.take 4)),
                (⟨s.flatten.drop 4, []⟩ : Deserializer)) :
                Except Error (Value × Deserializer))
              else Except.error Error.InvalidChar) = .error e := h
          rw [if_pos hv32] at h
          simp at h
        · replace h : (if validScalar (fromBE (s.flatten.take 4)) = true then
              (Except.ok (Value.char (fromBE (s.flatten.take 4)),
                (⟨s.flatten.drop 4, []⟩ : Deserializer)) :
                Except Error (Value × Deserializer))
              else Except.error Error.InvalidChar) = .error e := h
          rw [if_neg hv32] at h
          simp only [Except.error.injEq] at h
          subst h
          rw [deserialize, hok, bind_ok]
          show (if validScalar (fromBE (s.flatten.take 4)) = true then
            (Except.ok (Value.char (fromBE (s.flatten.take 4)), s2) :
              Except Error (Value × Deserializer))
            else Except.error Error.InvalidChar) = _
          rw [if_neg hv32]
      · rw [bind_error] at h
        simp only [Except.error.injEq] at h
        subst h
        rename_i hgt
        rw [deserialize, (Deserializer.next_u32_flatten s).2 (by omega), bind_error]
  | .str, s => by
    constructor
    · intro v t h
      rw [deserialize] at h
      cases hp : Deserializer.parse_bytes ⟨s.flatten, []⟩ with
      | error e => rw [hp, bind_error] at h; exact absurd h (by simp)
      | ok p =>
        obtain ⟨cow, t1⟩ := p
        rw [hp, bind_ok] at h
        obtain ⟨cow', s2, hpb, hdata, hs2, hiter⟩ :=
          (Deserializer.parse_bytes_chunked s).1 cow t1 hp
        replace h : (match utf8Decode cow.data with
            | some cs => (Except.ok (Value.str cs, t1) :
                Except Error (Value × Deserializer))
            | none => Except.error Error.InvalidStr) = .ok (v, t) := h
        cases hd : utf8Decode cow.data with
        | none =>
          rw [hd] at h
          simp at h
        | some cs =>
          rw [hd] at h
          replace h : (Except.ok (Value.str cs, t1) :
            Except Error (Value × Deserializer)) = .ok (v, t) := h
          simp only [Except.ok.injEq, Prod.mk.injEq] at h
          obtain ⟨hv, ht⟩ := h
          refine ⟨s2, ?_, ?_, ?_⟩
          · rw [deserialize, hpb, bind_ok]
            show (match utf8Decode cow'.data with
              | some cs => (Except.ok (Value.str cs, s2) :
                  Except Error (Value × Deserializer))
              | none => Except.error Error.InvalidStr) = _
            rw [hdata, hd]
            show (Except.ok (Value.str cs, s2) :
              Except Error (Value × Deserializer)) = _
            rw [hv]
          · rw [hs2, ← ht]
          · rw [← ht]
            exact hiter
    · intro e h
      rw [deserialize] at h
      cases hp : Deserializer.parse_bytes ⟨s.flatten, []⟩ with
      | error e2 =>
        rw [hp, bind_error] at h
        replace h : (Except.error e2 : Except Error (Value × Deserializer)) =
          .error e := h
        simp only [Except.error.injEq] at h
        subst h
        rw [deserialize, (Deserializer.parse_bytes_chunked s).2 e2 hp, bind_error]
      | ok p =>
        obtain ⟨cow, t1⟩ := p
        rw [hp, bind_ok] at h
        obtain ⟨cow', s2, hpb, hdata, hs2, hiter⟩ :=
          (Deserializer.parse_bytes_chunked s).1 cow t1 hp
        replace h : (match utf8Decode cow.data with
            | some cs => (Except.ok (Value.str cs, t1) :
                Except Error (Value × Deserializer))
            | none => Except.error Error.InvalidStr) = .error e := h
        cases hd : utf8Decode cow.data with
        | some cs =>
          rw [hd] at h
          simp at h
        | none =>
          rw [hd] at h
          replace h : (Except.error Error.InvalidStr :
            Except Error (Value × Deserializer)) = .error e := h
          simp only [Except.error.injEq] at h
          subst h
          rw [deserialize, hpb, bind_ok]
          show (match utf8Decode cow'.data with
            | some cs => (Except.ok (Value.str cs, s2) :
                Except Error (Value × Deserializer))
            | none => Except.error Error.InvalidStr) = _
          rw [hdata, hd]
  | .bytes, s => by
    constructor
    · intro v t h
      rw [deserialize] at h
      cases hp : Deserializer.parse_bytes ⟨s.flatten, []⟩ with
      | error e => rw [hp, bind_error] at h; exact absurd h (by simp)
      | ok p =>
        obtain ⟨cow, t1⟩ := p
        rw [hp, bind_ok] at h
        replace h : Except.ok (Value.bytes cow.data, t1) = .ok (v, t) := h
        simp only [Except.ok.injEq, Prod.mk.injEq] at h
        obtain ⟨hv, ht⟩ := h
        obtain ⟨cow', s2, hpb, hdata, hs2, hiter⟩ :=
          (Deserializer.parse_bytes_chunked s).1 cow t1 hp
        refine ⟨s2, ?_, ?_, ?_⟩
        · rw [deserialize, hpb, bind_ok]
          show Except.ok (Value.bytes cow'.data, s2) = _
          rw [hdata, hv]
        · rw [hs2, ← ht]
        · rw [← ht]
          exact hiter
    · intro e h
      rw [deserialize] at h
      cases hp : Deserializer.parse_bytes ⟨s.flatten, []⟩ with
      | error e2 =>
        rw [hp, bind_error] at h
        replace h : (Except.error e2 : Except Error (Value × Deserializer)) =
          .error e := h
        simp only [Except.error.injEq] at h
        subst h
        rw [deserialize, (Deserializer.parse_bytes_chunked s).2 e2 hp, bind_error]
      | ok p =>
        obtain ⟨cow, t1⟩ := p
        rw [hp, bind_ok] at h
        replace h : Except.ok (Value.bytes cow.data, t1) = .error e := h
        simp at h
  | .unit, s => by
    constructor
    · intro v t h
      rw [deserialize] at h
      replace h : Except.ok (Value.unit, (⟨s.flatten, []⟩ : Deserializer)) =
        .ok (v, t) := h
      simp only [Except.ok.injEq, Prod.mk.injEq] at h
      obtain ⟨hv, ht⟩ := h
      refine ⟨s, ?_, ?_, ?_⟩
      · rw [deserialize, hv]
      · rw [← ht]
      · rw [← ht]
    · intro e h
      rw [deserialize] at h
      replace h : Except.ok (Value.unit, (⟨s.flatten, []⟩ : Deserializer)) =
        .error e := h
      simp at h
  | .option, s => by
    constructor
    · intro v t h
      rw [deserialize] at h
      simp at h
    · intro e h
      rw [deserialize] at h
      replace h : (Except.error (Error.Unsupported "deserialize_option") :
        Except Error (Value × Deserializer)) = .error e := h
      simp only [Except.error.injEq] at h
      subst h
      rw [deserialize]
  | .tuple shs, s => by
    constructor
    · intro v t h
      rw [deserialize] at h
      cases hf : deserializeFields shs ⟨s.flatten, []⟩ with
      | error e => rw [hf, bind_error] at h; exact absurd h (by simp)
      | ok p =>
        obtain ⟨vs, t1⟩ := p
        rw [hf, bind_ok] at h
        replace h : Except.ok (Value.tuple vs, t1) = .ok (v, t) := h
        simp only [Except.ok.injEq, Prod.mk.injEq] at h
        obtain ⟨hv, ht⟩ := h
        obtain ⟨s2, hcf, hs2, hiter⟩ := (deserializeFields_chunked shs s).1 vs t1 hf
        refine ⟨s2, ?_, ?_, ?_⟩
        · rw [deserialize, hcf, bind_ok]
          show Except.ok (Value.tuple vs, s2) = _
          rw [hv]
        · rw [hs2, ← ht]
        · rw [← ht]
          exact hiter
    · intro e h
      rw [deserialize] at h
      cases hf : deserializeFields shs ⟨s.flatten, []⟩ with
      | error e2 =>
        rw [hf, bind_error] at h
        replace h : (Except.error e2 : Except Error (Value × Deserializer)) =
          .error e := h
        simp only [Except.error.injEq] at h
        subst h
        rw [deserialize, (deserializeFields_chunked shs s).2 e2 hf, bind_error]
      | ok p =>
        obtain ⟨vs, t1⟩ := p
        rw [hf, bind_ok] at h
        replace h : Except.ok (Value.tuple vs, t1) = .error e := h
        simp at h
  | .seq elemSh, s => by
    constructor
    · intro v t h
      rw [deserialize, Deserializer.next_u32_contig_general] at h
      split at h
      · rename_i hle
        rw [bind_ok] at h
        obtain ⟨s2, hok, hs2⟩ := (Deserializer.next_u32_flatten s).1 hle
        replace h : (do
            let (vs, s1) ← deserializeCount elemSh (fromBE (s.flatten.take 4))
              (⟨s.flatten.drop 4, []⟩ : Deserializer)
            Except.ok (Value.seq vs, s1)) = .ok (v, t) := h
        cases hc : deserializeCount elemSh (fromBE (s.flatten.take 4))
            (⟨s.flatten.drop 4, []⟩ : Deserializer) with
        | error e => rw [hc, bind_error] at h; exact absurd h (by simp)
        | ok q =>
          obtain ⟨vs, t2⟩ := q
          rw [hc, bind_ok] at h
          replace h : Except.ok (Value.seq vs, t2) = .ok (v, t) := h
          simp only [Except.ok.injEq, Prod.mk.injEq] at h
          obtain ⟨hv, ht⟩ := h
          rw [show (⟨s.flatten.drop 4, []⟩ : Deserializer) = ⟨s2.flatten, []⟩ by
            rw [hs2]] at hc
          obtain ⟨s3, hcc, hs3, hiter⟩ :=
            (deserializeCount_chunked elemSh (fromBE (s.flatten.take 4)) s2).1 vs t2 hc
          refine ⟨s3, ?_, ?_, ?_⟩
          · rw [deserialize, hok, bind_ok]
            show (do
              let (vs, s1) ← deserializeCount elemSh (fromBE (s.flatten.take 4)) s2
              Except.ok (Value.seq vs, s1)) = _
            rw [hcc, bind_ok]
            show Except.ok (Value.seq vs, s3) = _
            rw [hv]
          · rw [hs3, ← ht]
          · rw [← ht]
            exact hiter
      · rw [bind_error] at h
        simp at h
    · intro e h
      rw [deserialize, Deserializer.next_u32_contig_general] at h
      split at h
      · rename_i hle
        rw [bind_ok] at h
        obtain ⟨s2, hok, hs2⟩ := (Deserializer.next_u32_flatten s).1 hle
        replace h : (do
            let (vs, s1) ← deserializeCount elemSh (fromBE (s.flatten.take 4))
              (⟨s.flatten.drop 4, []⟩ : Deserializer)
            Except.ok (Value.seq vs, s1)) = .error e := h
        cases hc : deserializeCount elemSh (fromBE (s.flatten.take 4))
            (⟨s.flatten.drop 4, []⟩ : Deserializer) with
        | ok q =>
          obtain ⟨vs, t2⟩ := q
          rw [hc, bind_ok] at h
          replace h : Except.ok (Value.seq vs, t2) = .error e := h
          simp at h
        | error e2 =>
          rw [hc, bind_error] at h
          replace h : (Except.error e2 : Except Error (Value × Deserializer)) =
            .error e := h
          simp only [Except.error.injEq] at h
          subst h
          rw [show (⟨s.flatten.drop 4, []⟩ : Deserializer) = ⟨s2.flatten, []⟩ by
            rw [hs2]] at hc
          rw [deserialize, hok, bind_ok]
          show (do
            let (vs, s1) ← deserializeCount elemSh (fromBE (s.flatten.take 4)) s2
            Except.ok (Value.seq vs, s1)) = _
          rw [(deserializeCount_chunked elemSh (fromBE (s.flatten.take 4)) s2).2 e2 hc,
            bind_error]
      · rw [bind_error] at h
        simp only [Except.error.injEq] at h
        subst h
        rename_i hgt
        rw [deserialize, (Deserializer.next_u32_flatten s).2 (by omega), bind_error]
  | .enum variants, s => by
    constructor
    · intro v t h
      rw [deserialize, Deserializer.next_u32_contig_general] at h
      split at h
      · rename_i hle
        rw [bind_ok] at h
        obtain ⟨s2, hok, hs2⟩ := (Deserializer.next_u32_flatten s).1 hle
        replace h : (do
            let (vs, s1) ← deserializeVariant variants (fromBE (s.flatten.take 4))
              (⟨s.flatten.drop 4, []⟩ : Deserializer)
            Except.ok (Value.enum (fromBE (s.flatten.take 4)) vs, s1)) = .ok (v, t) := h
        cases hc : deserializeVariant variants (fromBE (s.flatten.take 4))
            (⟨s.flatten.drop 4, []⟩ : Deserializer) with
        | error e => rw [hc, bind_error] at h; exact absurd h (by simp)
        | ok q =>
          obtain ⟨vs, t2⟩ := q
          rw [hc, bind_ok] at h
          replace h : Except.ok (Value.enum (fromBE (s.flatten.take 4)) vs, t2) =
            .ok (v, t) := h
          simp only [Except.ok.injEq, Prod.mk.injEq] at h
          obtain ⟨hv, ht⟩ := h
          rw [show (⟨s.flatten.drop 4, []⟩ : Deserializer) = ⟨s2.flatten, []⟩ by
            rw [hs2]] at hc
          obtain ⟨s3, hcc, hs3, hiter⟩ :=
            (deserializeVariant_chunked variants (fromBE (s.flatten.take 4)) s2).1 vs t2 hc
          refine ⟨s3, ?_, ?_, ?_⟩
          · rw [deserialize, hok, bind_ok]
            show (do
              let (vs, s1) ← deserializeVariant variants (fromBE (s.flatten.take 4)) s2
              Except.ok (Value.enum (fromBE (s.flatten.take 4)) vs, s1)) = _
            rw [hcc, bind_ok]
            show Except.ok (Value.enum (fromBE (s.flatten.take 4)) vs, s3) = _
            rw [hv]
          · rw [hs3, ← ht]
          · rw [← ht]
            exact hiter
      · rw [bind_error] at h
        simp at h
    · intro e h
      rw [deserialize, Deserializer.next_u32_contig_general] at h
      split at h
      · rename_i hle
        rw [bind_ok] at h
        obtain ⟨s2, hok, hs2⟩ := (Deserializer.next_u32_flatten s).1 hle
        replace h : (do
            let (vs, s1) ← deserializeVariant variants (fromBE (s.flatten.take 4))
              (⟨s.flatten.drop 4, []⟩ : Deserializer)
            Except.ok (Value.enum (fromBE (s.flatten.take 4)) vs, s1)) = .error e := h
        cases hc : deserializeVariant variants (fromBE (s.flatten.take 4))
            (⟨s.flatten.drop 4, []⟩ : Deserializer) with
        | ok q =>
          obtain ⟨vs, t2⟩ := q
          rw [hc, bind_ok] at h
          replace h : Except.ok (Value.enum (fromBE (s.flatten.take 4)) vs, t2) =
            .error e := h
          simp at h
        | error e2 =>
          rw [hc, bind_error] at h
          replace h : (Except.error e2 : Except Error (Value × Deserializer)) =
            .error e := h
          simp only [Except.error.injEq] at h
          subst h
          rw [show (⟨s.flatten.drop 4, []⟩ : Deserializer) = ⟨s2.flatten, []⟩ by
            rw [hs2]] at hc
          rw [deserialize, hok, bind_ok]
          show (do
            let (vs, s1) ← deserializeVariant variants (fromBE (s.flatten.take 4)) s2
            Except.ok (Value.enum (fromBE (s.flatten.take 4)) vs, s1)) = _
          rw [(deserializeVariant_chunked variants (fromBE (s.flatten.take 4)) s2).2 e2 hc,
            bind_error]
      · rw [bind_error] at h
        simp only [Except.error.injEq] at h
        subst h
        rename_i hgt
        rw [deserialize, (Deserializer.next_u32_flatten s).2 (by omega), bind_error]
termination_by sh s => (sizeOf sh, 0)
decreasing_by
  all_goals simp_wf
  all_goals first
  | (apply Prod.Lex.left; omega)
  | (apply Prod.Lex.right; omega)

/-- Chunked field-list decoding is simulated by contiguous decoding. -/
theorem deserializeFields_chunked : ∀ (shs : List Shape) (s : Deserializer),
    (∀ vs t, deserializeFields shs ⟨s.flatten, []⟩ = .ok (vs, t) →
      ∃ s', deserializeFields shs s = .ok (vs, s') ∧ s'.flatten = t.slice ∧
        t.iter = []) ∧
    (∀ e, deserializeFields shs ⟨s.flatten, []⟩ = .error e →
      deserializeFields shs s = .error e)

  | [], s => by
    constructor
    · intro vs t h
      rw [deserializeFields] at h
      replace h : Except.ok (([] : List Value), (⟨s.flatten, []⟩ : Deserializer)) =
        .ok (vs, t) := h
      simp only [Except.ok.injEq, Prod.mk.injEq] at h
      obtain ⟨hv, ht⟩ := h
      refine ⟨s, ?_, ?_, ?_⟩
      · rw [deserializeFields, hv]
      · rw [← ht]
      · rw [← ht]
    · intro e h
      rw [deserializeFields] at h
      replace h : Except.ok (([] : List Value), (⟨s.flatten, []⟩ : Deserializer)) =
        .error e := h
      simp at h
  | sh :: shs, s => by
    constructor
    · intro vs t h
      rw [deserializeFields] at h
      cases h1 : deserialize sh ⟨s.flatten, []⟩ with
      | error e => rw [h1, bind_error] at h; exact absurd h (by simp)
      | ok p =>
        obtain ⟨v1, t1⟩ := p
        rw [h1, bind_ok] at h
        obtain ⟨s1, hc1, hs1, hi1⟩ := (deserialize_chunked sh s).1 v1 t1 h1
        have ht1eq : t1 = ⟨s1.flatten, []⟩ := by
          cases t1 with
          | mk sl it =>
            simp only at hs1 hi1
            rw [hi1, hs1]
        replace h : (do
            let (vs2, s2) ← deserializeFields shs t1
            Except.ok (v1 :: vs2, s2)) = .ok (vs, t) := h
        rw [ht1eq] at h
        cases h2 : deserializeFields shs ⟨s1.flatten, []⟩ with
        | error e => rw [h2, bind_error] at h; exact absurd h (by simp)
        | ok q =>
          obtain ⟨vs2, t2⟩ := q
          rw [h2, bind_ok] at h
          replace h : Except.ok (v1 :: vs2, t2) = .ok (vs, t) := h
          simp only [Except.ok.injEq, Prod.mk.injEq] at h
          obtain ⟨hv, ht⟩ := h
          obtain ⟨s2, hc2, hs2, hi2⟩ := (deserializeFields_chunked shs s1).1 vs2 t2 h2
          refine ⟨s2, ?_, ?_, ?_⟩
          · rw [deserializeFields, hc1, bind_ok]
            show (do
              let (vs2, s2) ← deserializeFields shs s1
              Except.ok (v1 :: vs2, s2)) = _
            rw [hc2, bind_ok]
            show Except.ok (v1 :: vs2, s2) = _
            rw [hv]
          · rw [hs2, ← ht]
          · rw [← ht]
            exact hi2
    · intro e h
      rw [deserializeFields] at h
      cases h1 : deserialize sh ⟨s.flatten, []⟩ with
      | error e2 =>
        rw [h1, bind_error] at h
        replace h : (Except.error e2 : Except Error (List Value × Deserializer)) =
          .error e := h
        simp only [Except.error.injEq] at h
        subst h
        rw [deserializeFields, (deserialize_chunked sh s).2 e2 h1, bind_error]
      | ok p =>
        obtain ⟨v1, t1⟩ := p
        rw [h1, bind_ok] at h
        obtain ⟨s1, hc1, hs1, hi1⟩ := (deserialize_chunked sh s).1 v1 t1 h1
        have ht1eq : t1 = ⟨s1.flatten, []⟩ := by
          cases t1 with
          | mk sl it =>
            simp only at hs1 hi1
            rw [hi1, hs1]
        replace h : (do
            let (vs2, s2) ← deserializeFields shs t1
            Except.ok (v1 :: vs2, s2)) = .error e := h
        rw [ht1eq] at h
        cases h2 : deserializeFields shs ⟨s1.flatten, []⟩ with
        | ok q =>
          obtain ⟨vs2, t2⟩ := q
          rw [h2, bind_ok] at h
          replace h : Except.ok (v1 :: vs2, t2) = .error e := h
          simp at h
        | error e2 =>
          rw [h2, bind_error] at h
          replace h : (Except.error e2 : Except Error (List Value × Deserializer)) =
            .error e := h
          simp only [Except.error.injEq] at h
          subst h
          rw [deserializeFields, hc1, bind_ok]
          show (do
            let (vs2, s2) ← deserializeFields shs s1
            Except.ok (v1 :: vs2, s2)) = _
          rw [(deserializeFields_chunked shs s1).2 e2 h2, bind_error]
termination_by shs s => (sizeOf shs, 0)
decreasing_by
  all_goals simp_wf
  all_goals first
  | (apply Prod.Lex.left; omega)
  | (apply Prod.Lex.right; omega)

/-- Chunked counted-element decoding is simulated by contiguous decoding. -/
theorem deserializeCount_chunked : ∀ (elemSh : Shape) (n : Nat) (s : Deserializer),
    (∀ vs t, deserializeCount elemSh n ⟨s.flatten, []⟩ = .ok (vs, t) →
      ∃ s', deserializeCount elemSh n s = .ok (vs, s') ∧ s'.flatten = t.slice ∧
        t.iter = []) ∧
    (∀ e, deserializeCount elemSh n ⟨s.flatten, []⟩ = .error e →
      deserializeCount elemSh n s = .error e)

  | elemSh, 0, s => by
    constructor
    · intro vs t h
      rw [deserializeCount] at h
      replace h : Except.ok (([] : List Value), (⟨s.flatten, []⟩ : Deserializer)) =
        .ok (vs, t) := h
      simp only [Except.ok.injEq, Prod.mk.injEq] at h
      obtain ⟨hv, ht⟩ := h
      refine ⟨s, ?_, ?_, ?_⟩
      · rw [deserializeCount, hv]
      · rw [← ht]
      · rw [← ht]
    · intro e h
      rw [deserializeCount] at h
      replace h : Except.ok (([] : List Value), (⟨s.flatten, []⟩ : Deserializer)) =
        .error e := h
      simp at h
  | elemSh, n + 1, s => by
    constructor
    · intro vs t h
      rw [deserializeCount] at h
      cases h1 : deserialize elemSh ⟨s.flatten, []⟩ with
      | error e => rw [h1, bind_error] at h; exact absurd h (by simp)
      | ok p =>
        obtain ⟨v1, t1⟩ := p
        rw [h1, bind_ok] at h
        obtain ⟨s1, hc1, hs1, hi1⟩ := (deserialize_chunked elemSh s).1 v1 t1 h1
        have ht1eq : t1 = ⟨s1.flatten, []⟩ := by
          cases t1 with
          | mk sl it =>
            simp only at hs1 hi1
            rw [hi1, hs1]
        replace h : (do
            let (vs2, s2) ← deserializeCount elemSh n t1
            Except.ok (v1 :: vs2, s2)) = .ok (vs, t) := h
        rw [ht1eq] at h
        cases h2 : deserializeCount elemSh n ⟨s1.flatten, []⟩ with
        | error e => rw [h2, bind_error] at h; exact absurd h (by simp)
        | ok q =>
          obtain ⟨vs2, t2⟩ := q
          rw [h2, bind_ok] at h
          replace h : Except.ok (v1 :: vs2, t2) = .ok (vs, t) := h
          simp only [Except.ok.injEq, Prod.mk.injEq] at h
          obtain ⟨hv, ht⟩ := h
          obtain ⟨s2, hc2, hs2, hi2⟩ :=
            (deserializeCount_chunked elemSh n s1).1 vs2 t2 h2
          refine ⟨s2, ?_, ?_, ?_⟩
          · rw [deserializeCount, hc1, bind_ok]
            show (do
              let (vs2, s2) ← deserializeCount elemSh n s1
              Except.ok (v1 :: vs2, s2)) = _
            rw [hc2, bind_ok]
            show Except.ok (v1 :: vs2, s2) = _
            rw [hv]
          · rw [hs2, ← ht]
          · rw [← ht]
            exact hi2
    · intro e h
      rw [deserializeCount] at h
      cases h1 : deserialize elemSh ⟨s.flatten, []⟩ with
      | error e2 =>
        rw [h1, bind_error] at h
        replace h : (Except.error e2 : Except Error (List Value × Deserializer)) =
          .error e := h
        simp only [Except.error.injEq] at h
        subst h
        rw [deserializeCount, (deserialize_chunked elemSh s).2 e2 h1, bind_error]
      | ok p =>
        obtain ⟨v1, t1⟩ := p
        rw [h1, bind_ok] at h
        obtain ⟨s1, hc1, hs1, hi1⟩ := (deserialize_chunked elemSh s).1 v1 t1 h1
        have ht1eq : t1 = ⟨s1.flatten, []⟩ := by
          cases t1 with
          | mk sl it =>
            simp only at hs1 hi1
            rw [hi1, hs1]
        replace h : (do
            let (vs2, s2) ← deserializeCount elemSh n t1
            Except.ok (v1 :: vs2, s2)) = .error e := h
        rw [ht1eq] at h
        cases h2 : deserializeCount elemSh n ⟨s1.flatten, []⟩ with
        | ok q =>
          obtain ⟨vs2, t2⟩ := q
          rw [h2, bind_ok] at h
          replace h : Except.ok (v1 :: vs2, t2) = .error e := h
          simp at h
        | error e2 =>
          rw [h2, bind_error] at h
          replace h : (Except.error e2 : Except Error (List Value × Deserializer)) =
            .error e := h
          simp only [Except.error.injEq] at h
          subst h
          rw [deserializeCount, hc1, bind_ok]
          show (do
            let (vs2, s2) ← deserializeCount elemSh n s1
            Except.ok (v1 :: vs2, s2)) = _
          rw [(deserializeCount_chunked elemSh n s1).2 e2 h2, bind_error]
termination_by elemSh n s => (sizeOf elemSh, n + 1)
decreasing_by
  all_goals simp_wf
  all_goals first
  | (apply Prod.Lex.left; omega)
  | (apply Prod.Lex.right; omega)

/-- Chunked variant dispatch is simulated by contiguous dispatch. -/
theorem deserializeVariant_chunked : ∀ (variants : List (List Shape)) (idx : Nat)
    (s : Deserializer),
    (∀ vs t, deserializeVariant variants idx ⟨s.flatten, []⟩ = .ok (vs, t) →
      ∃ s', deserializeVariant variants idx s = .ok (vs, s') ∧
        s'.flatten = t.slice ∧ t.iter = []) ∧
    (∀ e, deserializeVariant variants idx ⟨s.flatten, []⟩ = .error e →
      deserializeVariant variants idx s = .error e)

  | [], idx, s => by
    constructor
    · intro vs t h
      rw [deserializeVariant] at h
      simp at h
    · intro e h
      rw [deserializeVariant] at h
      replace h : (Except.error (Error.Message "unknown variant index") :
        Except Error (List Value × Deserializer)) = .error e := h
      simp only [Except.error.injEq] at h
      subst h
      rw [deserializeVariant]
  | fs :: rest, 0, s => by
    have hgen := deserializeFields_chunked fs s
    constructor
    · intro vs t h
      rw [deserializeVariant] at h
      obtain ⟨s', h1, h2, h3⟩ := hgen.1 vs t h
      exact ⟨s', by rw [deserializeVariant]; exact h1, h2, h3⟩
    · intro e h
      rw [deserializeVariant] at h
      rw [deserializeVariant]
      exact hgen.2 e h
  | fs :: rest, idx + 1, s => by
    have hgen := deserializeVariant_chunked rest idx s
    constructor
    · intro vs t h
      rw [deserializeVariant] at h
      obtain ⟨s', h1, h2, h3⟩ := hgen.1 vs t h
      exact ⟨s', by rw [deserializeVariant]; exact h1, h2, h3⟩
    · intro e h
      rw [deserializeVariant] at h
      rw [deserializeVariant]
      exact hgen.2 e h
termination_by variants idx s => (sizeOf variants, 0)
decreasing_by
  all_goals simp_wf
  all_goals first
  | (apply Prod.Lex.left; omega)
  | (apply Prod.Lex.right; omega)

end

/-- C2: decoding from a chunked source yields exactly the same value and the
same success/failure outcome as decoding the single contiguous buffer obtained
by concatenating the chunks, for every shape and every chunking (including
interleaved empty chunks). -/
theorem C2_chunk_invariance (sh : Shape) (chunks : List (List Nat)) :
    Except.map Prod.fst (deserialize sh (Deserializer.new chunks)) =
      Except.map Prod.fst (deserialize sh ⟨chunks.flatten, []⟩) := by
  have hflat : (Deserializer.new chunks).flatten = chunks.flatten := by
    simp [Deserializer.new, Deserializer.flatten]
  cases hc : deserialize sh ⟨chunks.flatten, []⟩ with
  | ok p =>
    obtain ⟨v, t⟩ := p
    obtain ⟨s', hok, _, _⟩ :=
      (deserialize_chunked sh (Deserializer.new chunks)).1 v t
        (by rw [hflat]; exact hc)
    rw [hok]
    rfl
  | error e =>
    rw [(deserialize_chunked sh (Deserializer.new chunks)).2 e
      (by rw [hflat]; exact hc)]

/-- C7: a variable-length read of size `n` returns a borrowed zero-copy slice
of the current chunk whenever that chunk (after skipping empty chunks) has at
least `n` bytes, and otherwise an owned buffer of exactly `n` bytes copied
across subsequent chunks; the two cases are surfaced as the explicit
`Cow.borrowed` / `Cow.owned` constructors. -/
theorem C7_borrow_or_copy (n : Nat) (s : Deserializer) :
    (n ≤ (Deserializer.update_slice s).slice.length →
      Deserializer.next_bytes n s =
        .ok (.borrowed ((Deserializer.update_slice s).slice.take n),
          ⟨(Deserializer.update_slice s).slice.drop n,
            (Deserializer.update_slice s).iter⟩)) ∧
    ((Deserializer.update_slice s).slice.length < n → n ≤ s.flatten.length →
      ∃ s', Deserializer.next_bytes n s = .ok (.owned (s.flatten.take n), s') ∧
        s'.flatten = s.flatten.drop n) := by
  constructor
  · intro hle
    rw [Deserializer.next_bytes, if_pos hle]
  · intro hlt hflat
    rw [Deserializer.next_bytes, if_neg (by omega)]
    have hfl := Deserializer.flatten_update_slice s
    obtain ⟨s', hok, hs'⟩ :=
      (Deserializer.fill_buffer_flatten n (Deserializer.update_slice s)).1
        (by rw [hfl]; exact hflat)
    rw [hok]
    exact ⟨s', by rw [hfl], by rw [hs', hfl]⟩

/-- C7 witness: a borrowed read when the first chunk suffices, an owned read
spanning two chunks otherwise. -/
theorem C7_borrow_or_copy_witness :
    Deserializer.next_bytes 2 ⟨[10, 20, 30], []⟩ =
      .ok (.borrowed [10, 20], ⟨[30], []⟩) ∧
    (∃ s', Deserializer.next_bytes 2 ⟨[10], [[20]]⟩ =
      .ok (.owned [10, 20], s') ∧ s'.flatten = []) :=
  ⟨(C7_borrow_or_copy 2 ⟨[10, 20, 30], []⟩).1 (by decide),
   (C7_borrow_or_copy 2 ⟨[10], [[20]]⟩).2 (by decide) (by decide)⟩

/-- C5 counterexample: serializing a sequence of unknown length does not
fail; `serialize_seq` with `None` silently succeeds, leaving the serializer
unchanged and writing no count. -/
theorem C5_seq_counterexample :
    Serializer.serialize_seq ⟨[], 0⟩ none = .ok ⟨[], 0⟩ := rfl

/-- C5 (amended): serializing a sequence of known length `n` writes `n` as a
4-byte big-endian count (failing with `TooLong` when `n` exceeds `u32::MAX`),
and serializing a sequence of unknown length silently succeeds writing
nothing (it does not fail). -/
theorem C5_seq_header (st : Serializer) (n : Nat) :
    (n < 2 ^ 32 →
      Serializer.serialize_seq st (some n) =
        .ok ⟨st.output ++ toBE 4 n, st.len + 4⟩) ∧
    (2 ^ 32 ≤ n → Serializer.serialize_seq st (some n) = .error .TooLong) ∧
    Serializer.serialize_seq st none = .ok st := by
  refine ⟨?_, ?_, rfl⟩
  · intro h
    show Serializer.serialize_usize st n = _
    rw [Serializer.serialize_usize, Serializer.usize_to_u32, if_pos h, bind_ok]
    show Except.ok (st.serialize_u32 n) = _
    rw [Serializer.serialize_u32, Serializer.extend_from_slice, toBE_length]
  · intro h
    show Serializer.serialize_usize st n = _
    rw [Serializer.serialize_usize, Serializer.usize_to_u32,
      if_neg (by omega), bind_error]

/-- C5 witness: a known length is written as a 4-byte count; a length past
`u32::MAX` fails with `TooLong`. -/
theorem C5_seq_header_witness :
    Serializer.serialize_seq ⟨[], 0⟩ (some 3) = .ok ⟨toBE 4 3, 4⟩ ∧
    Serializer.serialize_seq ⟨[], 0⟩ (some (2 ^ 32)) = .error .TooLong :=
  ⟨(C5_seq_header ⟨[], 0⟩ 3).1 (by norm_num),
   (C5_seq_header ⟨[], 0⟩ (2 ^ 32)).2.1 (le_refl _)⟩

/-- C9: resetting a serializer (`SerBacker::reset` on the buffer together
with `reset_counter`) truncates the output back to exactly the first 4
placeholder header bytes and the running counter to 0, after which
`create_header` returns `[0, 0, 0, 0]`, so the allocation can be reused. -/
theorem C9_reset (st : Serializer) (h : 4 ≤ st.output.length) :
    (Serializer.reset_counter ⟨SerBacker.reset st.output, st.len⟩).output =
      st.output.take 4 ∧
    (Serializer.reset_counter ⟨SerBacker.reset st.output, st.len⟩).output.length
      = 4 ∧
    (Serializer.reset_counter ⟨SerBacker.reset st.output, st.len⟩).len = 0 ∧
    Serializer.create_header
      (Serializer.reset_counter ⟨SerBacker.reset st.output, st.len⟩) 0 =
      .ok [0, 0, 0, 0] := by
  have hout : SerBacker.reset st.output = st.output.take 4 := by
    rw [SerBacker.reset]
    by_cases hle : st.output.length ≤ 4
    · rw [if_pos hle]
      have h4 : st.output.length = 4 := by omega
      rw [h4]
      simp [List.take_of_length_le (le_of_eq h4)]
    · rw [if_neg hle]
  refine ⟨hout, ?_, rfl, ?_⟩
  · rw [Serializer.reset_counter]
    show (SerBacker.reset st.output).length = 4
    rw [hout, List.length_take]
    omega
  · show (if (0 : Nat) + 0 < 2 ^ 32 then
        (Except.ok ((0 : Nat) + 0) : Except Error Nat)
        else Except.error Error.TooLong) >>=
        (fun total => Except.ok (toBE 4 total)) = Except.ok [0, 0, 0, 0]
    rw [if_pos (by norm_num), bind_ok]
    rfl

/-- C9 witness: resetting a six-byte buffer with counter 99. -/
theorem C9_reset_witness :
    (Serializer.reset_counter ⟨SerBacker.reset [1, 2, 3, 4, 5, 6], 99⟩).output =
      [1, 2, 3, 4] ∧
    Serializer.create_header
      (Serializer.reset_counter ⟨SerBacker.reset [1, 2, 3, 4, 5, 6], 99⟩) 0 =
      .ok [0, 0, 0, 0] :=
  ⟨(C9_reset ⟨[1, 2, 3, 4, 5, 6], 99⟩ (by decide)).1,
   (C9_reset ⟨[1, 2, 3, 4, 5, 6], 99⟩ (by decide)).2.2.2⟩

/-- C10: decoding an `Option` fails on every input state with the
`Unsupported` error, even though `None` can be encoded (writing nothing) and
`Some v` can be encoded (as `v` itself). -/
theorem C10_option_unsupported :
    (∀ s : Deserializer, deserialize .option s =
      .error (.Unsupported "deserialize_option")) ∧
    (∀ st : Serializer, serializeValue .optNone st = .ok st) ∧
    (∀ (v : Value) (st : Serializer),
      serializeValue (.optSome v) st = serializeValue v st) := by
  refine ⟨fun s => ?_, fun st => rfl, fun v st => rfl⟩
  rw [deserialize]

end SshFormat
